import Mathlib

/-!
# Queue-per-key store (`main.go`)

A shallow embedding of the in-memory repository (`MyStack`, `QueuesMemoryRepo`) and of the
HTTP handlers (`ParseTimeout`, `HandleGet`, `HandlePut`) of `main.go`, followed by the
properties established about them.

Conventions of the embedding.

* A Go `string` is a Lean `String`; a Go slice `[]string` is a `List String` whose head is
  index `0` and whose last element is index `len-1`.
* A Go `error` result is an `Option GoError`; `none` is `nil`.
* A function that can raise a run-time panic (index out of range, slice bounds out of range)
  returns an `Option`; `none` is the panic.
* `MyStack.data` is a slice of pointers.  Every pointer in it is created by `CreateQueue`
  and points to a cell of its own, so the slice is modelled as the list of the cells.
  `findByKey` returns the pointer to the first cell carrying the key; a store through that
  pointer is `MyStack.store`, which rewrites that cell in place.
-/

namespace QueueStore

/-- Kind of failure reported by `strconv` (`strconv.ErrSyntax`, `strconv.ErrRange`). -/
inductive NumErrKind
  | invalidSyntax
  | outOfRange
  deriving DecidableEq, Repr

/-- The error values that occur in `main.go`: the two package-level sentinels and the
`*strconv.NumError` returned by `strconv.ParseInt`. -/
inductive GoError
  | errNotFound
  | errNoTimeout
  | numError (func : String) (num : String) (kind : NumErrKind)
  deriving DecidableEq, Repr

open GoError

/-- The struct `KeyValue`: a key and the slice of values stored under it. -/
structure KeyValue where
  key : String
  value : List String
  deriving DecidableEq, Repr

/-- The struct `MyStack`: the slice of entries. -/
structure MyStack where
  data : List KeyValue
  deriving DecidableEq, Repr

/-- The loop of `findByKey`: the first entry whose key equals `key`. -/
def findEntry : List KeyValue → String → Option KeyValue
  | [], _ => none
  | elem :: rest, key => if elem.key = key then some elem else findEntry rest key

/-- The method `findByKey`: `(elem, nil)` for the first entry carrying `key`,
`(nil, errNotFound)` when there is none. -/
def MyStack.findByKey (s : MyStack) (key : String) : Except GoError KeyValue :=
  match findEntry s.data key with
  | some elem => .ok elem
  | none => .error errNotFound

/-- The assignment `elem.value = v` through the pointer that `findByKey` returned for `key`:
the first entry carrying `key` gets the new slice, every other cell is left alone. -/
def storeEntry : List KeyValue → String → List String → List KeyValue
  | [], _, _ => []
  | elem :: rest, key, v =>
      if elem.key = key then { elem with value := v } :: rest
      else elem :: storeEntry rest key v

/-- Lifts `storeEntry` to `MyStack`. -/
def MyStack.store (s : MyStack) (key : String) (v : List String) : MyStack :=
  { data := storeEntry s.data key v }

/-- The method `CreateQueue`: appends a fresh entry holding the single value; returns the
new entry and a nil error. -/
def MyStack.CreateQueue (s : MyStack) (key value : String) :
    (KeyValue × Option GoError) × MyStack :=
  let newElem : KeyValue := { key := key, value := [] }
  let newElem := { newElem with value := newElem.value ++ [value] }
  ((newElem, none), { data := s.data ++ [newElem] })

/-- The method `AddInQueue`: appends `value` to the slice of the entry found for `key`. -/
def MyStack.AddInQueue (s : MyStack) (key value : String) : Option GoError × MyStack :=
  match s.findByKey key with
  | .error err => (some err, s)
  | .ok elem => (none, s.store key (elem.value ++ [value]))

/-- The method `DelValue`.  `elem.value[len(elem.value)-1]` is an index expression: on an
empty slice the index is out of range and the program panics (`none`).  Otherwise the
element at `len-1` is returned and the slice is cut to `elem.value[:len-1]`. -/
def MyStack.DelValue (s : MyStack) (key : String) :
    Option ((String × Option GoError) × MyStack) :=
  match s.findByKey key with
  | .error err => some (("", some err), s)
  | .ok elem =>
      match elem.value[elem.value.length - 1]? with
      | none => none
      | some lastElem =>
          some ((lastElem, none), s.store key (elem.value.take (elem.value.length - 1)))

/-- The struct `QueuesMemoryRepo`. -/
structure QueuesMemoryRepo where
  data : MyStack
  deriving DecidableEq, Repr

/-- The constructor `NewMemoryRepo`: the zero value, whose entry slice is nil. -/
def NewMemoryRepo : QueuesMemoryRepo := { data := { data := [] } }

/-- The method `QueuesMemoryRepo.Get`: one attempt to take a value for `key`. -/
def QueuesMemoryRepo.Get (repo : QueuesMemoryRepo) (key : String) :
    Option ((String × Option GoError) × QueuesMemoryRepo) :=
  match repo.data.findByKey key with
  | .error err => some (("", some err), repo)
  | .ok elem =>
      if elem.value.length = 0 then some (("", some errNotFound), repo)
      else
        match repo.data.DelValue key with
        | none => none
        | some ((_, some err), d) => some (("", some err), { data := d })
        | some ((ans, none), d) => some ((ans, none), { data := d })

/-- The method `QueuesMemoryRepo.Put`. -/
def QueuesMemoryRepo.Put (repo : QueuesMemoryRepo) (key value : String) :
    Option GoError × QueuesMemoryRepo :=
  match repo.data.findByKey key with
  | .error errNotFound =>
      match repo.data.CreateQueue key value with
      | ((_, some err), d) => (some err, { data := d })
      | ((_, none), d) => (none, { data := d })
  | .error err => (some err, repo)
  | .ok _ =>
      match repo.data.AddInQueue key value with
      | (some err, d) => (some err, { data := d })
      | (none, d) => (none, { data := d })

/-- The sequence of values currently stored for `key`: the slice of the entry `findByKey`
finds, `none` when the key has no entry. -/
def QueuesMemoryRepo.seq (repo : QueuesMemoryRepo) (key : String) : Option (List String) :=
  (findEntry repo.data.data key).map (fun elem => elem.value)

/-- The keys of the entry list, in order. -/
def QueuesMemoryRepo.keys (repo : QueuesMemoryRepo) : List String :=
  repo.data.data.map (fun elem => elem.key)

/-- The repository states that `Put` and `Get` calls can produce from `NewMemoryRepo`. -/
inductive Reachable : QueuesMemoryRepo → Prop
  | init : Reachable NewMemoryRepo
  | put (repo : QueuesMemoryRepo) (key value : String) :
      Reachable repo → Reachable (repo.Put key value).2
  | get (repo : QueuesMemoryRepo) (key : String) (out : String × Option GoError)
      (repo2 : QueuesMemoryRepo) :
      Reachable repo → repo.Get key = some (out, repo2) → Reachable repo2

/-- The repository states that `Put` and `Get` calls can produce from `NewMemoryRepo`
without any `Put` on the key `k`. -/
inductive ReachableWithoutPut (k : String) : QueuesMemoryRepo → Prop
  | init : ReachableWithoutPut k NewMemoryRepo
  | put (repo : QueuesMemoryRepo) (key value : String) :
      ReachableWithoutPut k repo → key ≠ k → ReachableWithoutPut k (repo.Put key value).2
  | get (repo : QueuesMemoryRepo) (key : String) (out : String × Option GoError)
      (repo2 : QueuesMemoryRepo) :
      ReachableWithoutPut k repo → repo.Get key = some (out, repo2) →
      ReachableWithoutPut k repo2

/-- Runs `Put key v` for each `v` of `vs`, in order. -/
def putAll (repo : QueuesMemoryRepo) (key : String) : List String → QueuesMemoryRepo
  | [] => repo
  | v :: vs => putAll (repo.Put key v).2 key vs

/-- Calls `Get key` `n` times in a row and collects what each call returned; `none` if a
call panics. -/
def getN (repo : QueuesMemoryRepo) (key : String) :
    Nat → Option (List (String × Option GoError) × QueuesMemoryRepo)
  | 0 => some ([], repo)
  | n + 1 =>
      match repo.Get key with
      | none => none
      | some (out, repo2) =>
          match getN repo2 key n with
          | none => none
          | some (outs, repo3) => some (out :: outs, repo3)

/-! ## `strconv.ParseInt(t, 10, 64)`

`ParseTimeout` calls the standard library's `strconv.ParseInt` with base 10 and bit size 64.
The two definitions below transcribe the library's `ParseUint` and `ParseInt` for these
arguments.  `uint64` arithmetic is arithmetic on `Nat` modulo `2^64`; `int64` values are
integers in `[-2^63, 2^63)`, and conversions to `int64` wrap around (`wrap64`). -/

/-- The constant `maxUint64`. -/
def maxUint64 : Nat := 2 ^ 64 - 1

/-- The `ParseUint` cutoff for base 10: the smallest number whose tenfold exceeds
`maxUint64`. -/
def cutoffU : Nat := maxUint64 / 10 + 1

/-- The library's `lower(c)`: `c | ('x' - 'X')`. -/
def lower (c : Char) : Nat := c.toNat ||| 32

/-- The digit value `ParseUint` assigns to a character: `c - '0'` for a decimal digit,
`lower(c) - 'a' + 10` for a letter, nothing otherwise. -/
def digitOf (c : Char) : Option Nat :=
  if 48 ≤ c.toNat ∧ c.toNat ≤ 57 then some (c.toNat - 48)
  else if 97 ≤ lower c ∧ lower c ≤ 122 then some (lower c - 97 + 10)
  else none

/-- The digit loop of `ParseUint` for base 10 and bit size 64, with accumulator `n`; `s0`
is the text being parsed, quoted in the error. -/
def parseUintLoop (s0 : String) : List Char → Nat → Nat × Option GoError
  | [], n => (n, none)
  | c :: cs, n =>
      match digitOf c with
      | none => (0, some (numError "ParseUint" s0 .invalidSyntax))
      | some d =>
          if d ≥ 10 then (0, some (numError "ParseUint" s0 .invalidSyntax))
          else if n ≥ cutoffU then (maxUint64, some (numError "ParseUint" s0 .outOfRange))
          else
            let n10 := (n * 10) % 2 ^ 64
            let n1 := (n10 + d) % 2 ^ 64
            if n1 < n10 ∨ n1 > maxUint64 then
              (maxUint64, some (numError "ParseUint" s0 .outOfRange))
            else parseUintLoop s0 cs n1

/-- The library function `strconv.ParseUint(s, 10, 64)`. -/
def ParseUint (s : String) : Nat × Option GoError :=
  if s = "" then (0, some (numError "ParseUint" s .invalidSyntax))
  else parseUintLoop s s.data 0

/-- Conversion of an integer to `int64` (two's complement wrap-around). -/
def wrap64 (x : Int) : Int := (x + 2 ^ 63) % 2 ^ 64 - 2 ^ 63

/-- The library function `strconv.ParseInt(s, 10, 64)`. -/
def ParseInt (s : String) : Int × Option GoError :=
  if s = "" then (0, some (numError "ParseInt" s .invalidSyntax))
  else
    let signed : Bool × List Char :=
      match s.data with
      | '+' :: rest => (false, rest)
      | '-' :: rest => (true, rest)
      | cs => (false, cs)
    let neg := signed.1
    match ParseUint (String.mk signed.2) with
    | (_, some (numError _ _ .invalidSyntax)) =>
        (0, some (numError "ParseInt" s .invalidSyntax))
    | (un, _) =>
        let cutoff : Nat := 2 ^ 63
        if neg = false ∧ un ≥ cutoff then
          (wrap64 (cutoff - 1 : Nat), some (numError "ParseInt" s .outOfRange))
        else if neg = true ∧ un > cutoff then
          (wrap64 (-(cutoff : Int)), some (numError "ParseInt" s .outOfRange))
        else
          let n := wrap64 (un : Int)
          (if neg then wrap64 (-n) else n, none)

/-! ## The HTTP handlers -/

/-- The parts of `*http.Request` the handlers read: the method, `r.URL.Path`, and the
parsed query `r.URL.Query()` as its `name=value` pairs in order of appearance. -/
structure Request where
  Method : String
  Path : String
  Query : List (String × String)
  deriving DecidableEq, Repr

/-- The library method `url.Values.Get`: the first value given for `name`, the empty string
when the parameter is absent. -/
def queryGet : List (String × String) → String → String
  | [], _ => ""
  | (k, v) :: rest, name => if k = name then v else queryGet rest name

/-- The slice expression `s[1:]`: a run-time panic (`none`) on the empty string.  (The
paths a server hands to a handler start with the one-byte character `/`.) -/
def sliceFrom1 (s : String) : Option String :=
  match s.data with
  | [] => none
  | _ :: cs => some (String.mk cs)

/-- The function `ParseTimeout`.  `len(t) == 0` holds exactly for the empty string. -/
def ParseTimeout (r : Request) : Int × Option GoError :=
  let t := queryGet r.Query "timeout"
  if t.length = 0 then (0, some errNoTimeout)
  else
    match ParseInt t with
    | (_, some err) => (0, some err)
    | (timeout, none) => (timeout, none)

/-- The status codes used by the handlers. -/
def StatusOK : Nat := 200

/-- The constant `http.StatusBadRequest`. -/
def StatusBadRequest : Nat := 400

/-- The constant `http.StatusNotFound`. -/
def StatusNotFound : Nat := 404

/-- The constant `http.StatusInternalServerError`. -/
def StatusInternalServerError : Nat := 500

/-- What a handler writes as the response body, by the call that wrote it: nothing,
`http.Error(w, err.Error(), code)`, `Encode(err)`, `Encode(res)`, `Encode(code)`. -/
inductive Body
  | empty
  | errorText (err : GoError)
  | jsonError (err : GoError)
  | jsonString (res : String)
  | jsonInt (n : Nat)
  deriving DecidableEq, Repr

/-- The response written to the `http.ResponseWriter`. -/
structure Response where
  status : Nat
  body : Body
  deriving DecidableEq, Repr

/-- The observable actions of a handler, in the order performed: a call of the repository
`Get` with what it returned, a call of the repository `Put`, and `time.Sleep(time.Second)`. -/
inductive Event
  | get (key : String) (out : String × Option GoError)
  | put (key value : String)
  | sleep
  deriving DecidableEq, Repr

/-- What other callers do to the repository while a request is suspended: `env i repo` is
the repository at the end of the suspension of loop iteration `i`, given the repository
`repo` at its start. -/
abbrev Env := Nat → QueuesMemoryRepo → QueuesMemoryRepo

/-- The environment in which no other caller touches the repository. -/
def quiet : Env := fun _ repo => repo

/-- The variables of `HandleGet` that the retry loop updates (`res`, `err`), the repository,
and the actions performed so far. -/
structure GetState where
  res : String
  err : Option GoError
  repo : QueuesMemoryRepo
  trace : List Event
  deriving DecidableEq, Repr

/-- The loop `for i := 0; i < int(timeout) && err != nil; i++ { res, err = Get(key);
time.Sleep(time.Second) }`.  The first argument is `int(timeout) - i`, the number of
iterations the bound still allows, so the recursion ends when `i` reaches the bound. -/
def retryLoop (env : Env) (key : String) : Nat → Nat → GetState → Option GetState
  | 0, _, st => some st
  | remaining + 1, i, st =>
      match st.err with
      | none => some st
      | some _ =>
          match st.repo.Get key with
          | none => none
          | some (out, repo2) =>
              retryLoop env key remaining (i + 1)
                { res := out.1, err := out.2, repo := env i repo2,
                  trace := st.trace ++ [Event.get key out, Event.sleep] }

/-- The end of `HandleGet`: status 404 with the encoded error if `err != nil`, otherwise
status 200 with the encoded `res`. -/
def writeGet (res : String) (err : Option GoError) : Response :=
  match err with
  | some e => { status := StatusNotFound, body := Body.jsonError e }
  | none => { status := StatusOK, body := Body.jsonString res }

/-- The repository after the other callers have acted during the suspensions of the loop
iterations `i`, ..., `i + n - 1`, when the request itself changes nothing:
`elapse env i n repo`. -/
def elapse (env : Env) : Nat → Nat → QueuesMemoryRepo → QueuesMemoryRepo
  | _, 0, repo => repo
  | i, n + 1, repo => elapse env (i + 1) n (env i repo)

/-- The actions of `n` loop iterations in which every `Get` fails: each iteration calls
`Get` and then sleeps. -/
def failedRetries (key : String) : Nat → List Event
  | 0 => []
  | n + 1 => Event.get key ("", some errNotFound) :: Event.sleep :: failedRetries key n

/-- The number of suspensions in a list of actions. -/
def sleeps (trace : List Event) : Nat := trace.count Event.sleep

/-- The number of repository `Get` calls in a list of actions. -/
def attempts : List Event → Nat
  | [] => 0
  | Event.get _ _ :: rest => attempts rest + 1
  | _ :: rest => attempts rest

/-- The value of the decimal digits `ds`, most significant first, read after the number
`acc`. -/
def readDigits (acc : Nat) : List Nat → Nat
  | [] => acc
  | d :: ds => readDigits (acc * 10 + d) ds

/-- What a handler call leaves behind: the response, the repository, the actions. -/
structure Served where
  resp : Response
  repo : QueuesMemoryRepo
  trace : List Event
  deriving DecidableEq, Repr

/-- The method `HandleGet`, run on the repository `repo` while other callers act as `env`.
The guard `err != nil && err != errNoTimeout` selects the parse errors other than
`errNoTimeout`.  `int(timeout)` is the identity (64-bit `int`); a negative bound allows no
iteration.  `none` is a run-time panic. -/
def HandleGet (env : Env) (repo : QueuesMemoryRepo) (r : Request) : Option Served :=
  match ParseTimeout r with
  | (timeout, perr) =>
      match perr.filter (fun e => decide (e ≠ errNoTimeout)) with
      | some e =>
        some { resp := { status := StatusInternalServerError, body := Body.errorText e },
               repo := repo, trace := [] }
      | none =>
        match sliceFrom1 r.Path with
        | none => none
        | some key =>
            match repo.Get key with
            | none => none
            | some (out, repo1) =>
                match retryLoop env key timeout.toNat 0
                    { res := out.1, err := out.2, repo := repo1,
                      trace := [Event.get key out] } with
                | none => none
                | some st => some { resp := writeGet st.res st.err, repo := st.repo,
                                    trace := st.trace }

/-- The method `HandlePut`. -/
def HandlePut (repo : QueuesMemoryRepo) (r : Request) : Option Served :=
  let pathname := r.Path
  let param := queryGet r.Query "v"
  if param.length = 0 then
    some { resp := { status := StatusBadRequest, body := Body.jsonInt StatusBadRequest },
           repo := repo, trace := [] }
  else
    match sliceFrom1 pathname with
    | none => none
    | some key =>
        match repo.Put key param with
        | (some err, repo1) =>
            some { resp := { status := StatusInternalServerError, body := Body.jsonError err },
                   repo := repo1, trace := [Event.put key param] }
        | (none, repo1) =>
            some { resp := { status := StatusOK, body := Body.empty },
                   repo := repo1, trace := [Event.put key param] }

/-- The canonical decimal text of an integer, as a client writes it in the query. -/
def decimalText (z : Int) : String :=
  if z < 0 then "-" ++ Nat.repr z.natAbs else Nat.repr z.natAbs

/-- What the repository `Get` calls in a list of actions returned, in order. -/
def getOutcomes : List Event → List (String × Option GoError)
  | [] => []
  | Event.get _ out :: rest => out :: getOutcomes rest
  | _ :: rest => getOutcomes rest

/-- The method `Handler`: `HandleGet` for the method `GET`, `HandlePut` for `PUT`, nothing
for any other method (the server then sends an empty 200 response). -/
def Handler (env : Env) (repo : QueuesMemoryRepo) (r : Request) : Option Served :=
  if r.Method = "GET" then HandleGet env repo r
  else if r.Method = "PUT" then HandlePut repo r
  else some { resp := { status := StatusOK, body := Body.empty }, repo := repo, trace := [] }

/-- The repository states produced from `NewMemoryRepo` by requests served one after the
other through `Handler`. -/
inductive HandlerReachable : QueuesMemoryRepo → Prop
  | init : HandlerReachable NewMemoryRepo
  | serve (repo : QueuesMemoryRepo) (r : Request) (served : Served) :
      HandlerReachable repo → Handler quiet repo r = some served →
      HandlerReachable served.repo

/-- No sequence of the repository contains the empty string. -/
def NoEmptyValue (repo : QueuesMemoryRepo) : Prop :=
  ∀ e ∈ repo.data.data, "" ∉ e.value

/-! ## Overlapping `Get` calls

The repository has no lock (`main.go` imports no synchronisation package), and the server
runs every request in a goroutine of its own.  To speak about `Get(key)` calls that overlap,
a call is cut into its statements that touch the repository: the lookup of line 78, the
length test of line 83, the lookup of line 49 inside `DelValue`, the index expression of
line 54 and the re-slice with the store of line 55.  Each of them is one step, executed
without interruption, and a schedule says which call performs the next step.  The `Get`
steps never add, remove or reorder entries, so the pointer `elem` held by a call keeps
designating the first entry that carries the key. -/

/-- Where a `Get(key)` call stands: before line 78 (`start`), before the length test of
line 83 (`found`), before the lookup of `DelValue` in line 49 (`checked`), before the
index expression of line 54 (`delFound`), before the statement of line 55 with the local
variable `lastElem` set (`read`), returned (`done`), or stopped by a run-time panic. -/
inductive GetPc
  | start
  | found
  | checked
  | delFound
  | read (lastElem : String)
  | done (out : String × Option GoError)
  | panicked
  deriving DecidableEq, Repr

/-- One step of a `Get(key)` call on the store `s`. -/
def stepGet (s : MyStack) (key : String) : GetPc → GetPc × MyStack
  | GetPc.start =>
      match s.findByKey key with
      | .error err => (GetPc.done ("", some err), s)
      | .ok _ => (GetPc.found, s)
  | GetPc.found =>
      match findEntry s.data key with
      | none => (GetPc.panicked, s)
      | some elem =>
          if elem.value.length = 0 then (GetPc.done ("", some errNotFound), s)
          else (GetPc.checked, s)
  | GetPc.checked =>
      match s.findByKey key with
      | .error err => (GetPc.done ("", some err), s)
      | .ok _ => (GetPc.delFound, s)
  | GetPc.delFound =>
      match findEntry s.data key with
      | none => (GetPc.panicked, s)
      | some elem =>
          match elem.value[elem.value.length - 1]? with
          | none => (GetPc.panicked, s)
          | some lastElem => (GetPc.read lastElem, s)
  | GetPc.read lastElem =>
      match findEntry s.data key with
      | none => (GetPc.panicked, s)
      | some elem =>
          if elem.value.length = 0 then (GetPc.panicked, s)
          else (GetPc.done (lastElem, none),
                s.store key (elem.value.take (elem.value.length - 1)))
  | GetPc.done out => (GetPc.done out, s)
  | GetPc.panicked => (GetPc.panicked, s)

/-- The first `n` steps of one `Get(key)` call that nobody interrupts. -/
def stepsGet (key : String) : Nat → GetPc × MyStack → GetPc × MyStack
  | 0, x => x
  | n + 1, x => stepsGet key n (stepGet x.2 key x.1)

/-- Runs the `Get(key)` calls `pcs` (call number `i` stands at `pcs i`) on the store `s`:
the schedule lists, step by step, the number of the call that moves. -/
def runSchedule (key : String) :
    MyStack → (Nat → GetPc) → List Nat → MyStack × (Nat → GetPc)
  | s, pcs, [] => (s, pcs)
  | s, pcs, i :: rest =>
      runSchedule key (stepGet s key (pcs i)).2
        (Function.update pcs i (stepGet s key (pcs i)).1) rest

/-- The schedule in which the calls number `base`, ..., `base + n - 1` run one after the
other, each to its end (a call takes at most five steps). -/
def serialSchedule : Nat → Nat → List Nat
  | _, 0 => []
  | base, n + 1 => List.replicate 5 base ++ serialSchedule (base + 1) n

/-! ## Entry lookup and in-place stores -/

theorem findEntry_key {d : List KeyValue} {k : String} {e : KeyValue}
    (h : findEntry d k = some e) : e.key = k := by
  induction d with
  | nil => simp [findEntry] at h
  | cons a rest ih =>
      unfold findEntry at h
      split at h
      · cases h; assumption
      · exact ih h

theorem findEntry_eq_none_iff (d : List KeyValue) (k : String) :
    findEntry d k = none ↔ k ∉ d.map (fun e => e.key) := by
  induction d with
  | nil => simp [findEntry]
  | cons a rest ih =>
      unfold findEntry
      by_cases h : a.key = k
      · simp [h]
      · simp [h, ih, Ne.symm h]

theorem findEntry_append (d d2 : List KeyValue) (k : String) :
    findEntry (d ++ d2) k = (findEntry d k).orElse (fun _ => findEntry d2 k) := by
  induction d with
  | nil => simp [findEntry]
  | cons a rest ih =>
      simp only [List.cons_append, findEntry]
      split
      · simp
      · exact ih

theorem storeEntry_keys (d : List KeyValue) (k : String) (v : List String) :
    (storeEntry d k v).map (fun e => e.key) = d.map (fun e => e.key) := by
  induction d with
  | nil => simp [storeEntry]
  | cons a rest ih =>
      unfold storeEntry
      split
      · simp
      · simp [ih]

theorem storeEntry_length (d : List KeyValue) (k : String) (v : List String) :
    (storeEntry d k v).length = d.length := by
  have h := congrArg List.length (storeEntry_keys d k v)
  simpa using h

theorem findEntry_storeEntry_same {d : List KeyValue} {k : String} {e : KeyValue}
    (v : List String) (h : findEntry d k = some e) :
    findEntry (storeEntry d k v) k = some { key := k, value := v } := by
  induction d with
  | nil => simp [findEntry] at h
  | cons a rest ih =>
      unfold findEntry at h
      unfold storeEntry
      by_cases hk : a.key = k
      · simp [hk, findEntry]
      · simp only [hk, if_false] at h ⊢
        simp only [findEntry, hk, if_false]
        exact ih h

theorem findEntry_storeEntry_other (d : List KeyValue) {k k2 : String} (v : List String)
    (hne : k2 ≠ k) : findEntry (storeEntry d k v) k2 = findEntry d k2 := by
  induction d with
  | nil => simp [storeEntry]
  | cons a rest ih =>
      unfold storeEntry
      by_cases hk : a.key = k
      · subst hk
        have hk2 : ¬ a.key = k2 := fun h => hne h.symm
        simp [findEntry, hk2]
      · simp only [hk, if_false, findEntry, ih]

theorem storeEntry_same_value {d : List KeyValue} {k : String} {e : KeyValue}
    (h : findEntry d k = some e) : storeEntry d k e.value = d := by
  induction d with
  | nil => simp [storeEntry]
  | cons a rest ih =>
      unfold findEntry at h
      unfold storeEntry
      by_cases hk : a.key = k
      · rw [if_pos hk] at h ⊢
        cases h
        rfl
      · simp only [hk, if_false] at h ⊢
        rw [ih h]

theorem storeEntry_storeEntry (d : List KeyValue) (k : String) (v w : List String) :
    storeEntry (storeEntry d k v) k w = storeEntry d k w := by
  induction d with
  | nil => simp [storeEntry]
  | cons a rest ih =>
      by_cases hk : a.key = k
      · simp [storeEntry, hk]
      · simp [storeEntry, hk, ih]

/-! ## What `Put` and `Get` do to the sequence of a key -/

theorem seq_eq_none_iff (repo : QueuesMemoryRepo) (k : String) :
    repo.seq k = none ↔ k ∉ repo.keys := by
  simp [QueuesMemoryRepo.seq, QueuesMemoryRepo.keys, findEntry_eq_none_iff]

/-- On a key without entry, `Put` appends the entry `(key, [value])`. -/
theorem Put_absent {repo : QueuesMemoryRepo} {k : String} (v : String)
    (h : repo.seq k = none) :
    repo.Put k v = (none, { data := { data := repo.data.data ++ [⟨k, [v]⟩] } }) := by
  have h2 : findEntry repo.data.data k = none := by
    simpa [QueuesMemoryRepo.seq] using h
  simp [QueuesMemoryRepo.Put, MyStack.findByKey, h2, MyStack.CreateQueue]

/-- On a key with an entry, `Put` stores the lengthened slice in that entry. -/
theorem Put_present {repo : QueuesMemoryRepo} {k : String} {old : List String} (v : String)
    (h : repo.seq k = some old) :
    repo.Put k v = (none, { data := repo.data.store k (old ++ [v]) }) := by
  obtain ⟨e, he, rfl⟩ : ∃ e, findEntry repo.data.data k = some e ∧ e.value = old := by
    simpa [QueuesMemoryRepo.seq] using h
  simp [QueuesMemoryRepo.Put, MyStack.findByKey, he, MyStack.AddInQueue]

/-- A single `Get` on a key without entry or with an empty slice. -/
theorem Get_unavailable {repo : QueuesMemoryRepo} {k : String}
    (h : repo.seq k = none ∨ repo.seq k = some []) :
    repo.Get k = some (("", some errNotFound), repo) := by
  rcases h with h | h
  · have h2 : findEntry repo.data.data k = none := by
      simpa [QueuesMemoryRepo.seq] using h
    simp [QueuesMemoryRepo.Get, MyStack.findByKey, h2]
  · obtain ⟨e, he, hv⟩ : ∃ e, findEntry repo.data.data k = some e ∧ e.value = [] := by
      simpa [QueuesMemoryRepo.seq] using h
    simp [QueuesMemoryRepo.Get, MyStack.findByKey, he, hv]

/-- A single `Get` on a key whose slice is `s ++ [x]`: `x` is returned and `s` stays. -/
theorem Get_available {repo : QueuesMemoryRepo} {k : String} {s : List String} {x : String}
    (h : repo.seq k = some (s ++ [x])) :
    repo.Get k = some ((x, none), { data := repo.data.store k s }) := by
  obtain ⟨e, he, hv⟩ : ∃ e, findEntry repo.data.data k = some e ∧ e.value = s ++ [x] := by
    simpa [QueuesMemoryRepo.seq] using h
  simp [QueuesMemoryRepo.Get, MyStack.findByKey, he, hv, MyStack.DelValue]

theorem seq_store_same {repo : QueuesMemoryRepo} {k : String} {old : List String}
    (v : List String) (h : repo.seq k = some old) :
    QueuesMemoryRepo.seq { data := repo.data.store k v } k = some v := by
  obtain ⟨e, he, -⟩ : ∃ e, findEntry repo.data.data k = some e ∧ e.value = old := by
    simpa [QueuesMemoryRepo.seq] using h
  simp [QueuesMemoryRepo.seq, MyStack.store, findEntry_storeEntry_same v he]

theorem seq_store_other (repo : QueuesMemoryRepo) {k k2 : String} (v : List String)
    (hne : k2 ≠ k) :
    QueuesMemoryRepo.seq { data := repo.data.store k v } k2 = repo.seq k2 := by
  simp [QueuesMemoryRepo.seq, MyStack.store, findEntry_storeEntry_other _ v hne]

theorem keys_store (repo : QueuesMemoryRepo) (k : String) (v : List String) :
    QueuesMemoryRepo.keys { data := repo.data.store k v } = repo.keys := by
  simp [QueuesMemoryRepo.keys, MyStack.store, storeEntry_keys]

theorem Put_err (repo : QueuesMemoryRepo) (k v : String) : (repo.Put k v).1 = none := by
  cases h : repo.seq k with
  | none => rw [Put_absent v h]
  | some old => rw [Put_present v h]

theorem Put_seq_same (repo : QueuesMemoryRepo) (k v : String) :
    (repo.Put k v).2.seq k = some ((repo.seq k).getD [] ++ [v]) := by
  cases h : repo.seq k with
  | none =>
      have h2 : findEntry repo.data.data k = none := by
        simpa [QueuesMemoryRepo.seq] using h
      rw [Put_absent v h]
      simp [QueuesMemoryRepo.seq, findEntry_append, h2, findEntry]
  | some old =>
      rw [Put_present v h]
      simpa using seq_store_same (old ++ [v]) h

theorem Put_seq_other (repo : QueuesMemoryRepo) {k k2 : String} (v : String) (hne : k2 ≠ k) :
    (repo.Put k v).2.seq k2 = repo.seq k2 := by
  cases h : repo.seq k with
  | none =>
      rw [Put_absent v h]
      have hk : ¬ k = k2 := fun e => hne e.symm
      simp only [QueuesMemoryRepo.seq, findEntry_append]
      cases findEntry repo.data.data k2 <;> simp [findEntry, hk]
  | some old =>
      rw [Put_present v h]
      exact seq_store_other repo _ hne

theorem Put_keys (repo : QueuesMemoryRepo) (k v : String) :
    (repo.Put k v).2.keys = if k ∈ repo.keys then repo.keys else repo.keys ++ [k] := by
  cases h : repo.seq k with
  | none =>
      rw [Put_absent v h, if_neg ((seq_eq_none_iff repo k).1 h)]
      simp [QueuesMemoryRepo.keys]
  | some old =>
      have hin : k ∈ repo.keys := by
        by_contra hc
        rw [(seq_eq_none_iff repo k).2 hc] at h
        cases h
      rw [Put_present v h, if_pos hin]
      exact keys_store repo k _

/-- The two ways a `Get` call can end: not found with the repository untouched, or the last
element of a non-empty slice taken. -/
theorem Get_cases {repo repo2 : QueuesMemoryRepo} {k : String} {out : String × Option GoError}
    (h : repo.Get k = some (out, repo2)) :
    (out = ("", some errNotFound) ∧ repo2 = repo ∧
        (repo.seq k = none ∨ repo.seq k = some [])) ∨
      (∃ s x, repo.seq k = some (s ++ [x]) ∧ out = (x, none) ∧
        repo2 = { data := repo.data.store k s }) := by
  cases hs : repo.seq k with
  | none =>
      rw [Get_unavailable (Or.inl hs)] at h
      cases h
      exact Or.inl ⟨rfl, rfl, Or.inl rfl⟩
  | some s =>
      rcases List.eq_nil_or_concat s with rfl | ⟨s2, x, rfl⟩
      · rw [Get_unavailable (Or.inr hs)] at h
        cases h
        exact Or.inl ⟨rfl, rfl, Or.inr rfl⟩
      · rw [List.concat_eq_append] at hs
        rw [Get_available hs] at h
        cases h
        exact Or.inr ⟨s2, x, by rw [List.concat_eq_append], rfl, rfl⟩

theorem Get_keys {repo repo2 : QueuesMemoryRepo} {k : String} {out : String × Option GoError}
    (h : repo.Get k = some (out, repo2)) : repo2.keys = repo.keys := by
  rcases Get_cases h with ⟨-, rfl, -⟩ | ⟨s, x, -, -, rfl⟩
  · rfl
  · exact keys_store repo k s

theorem putAll_seq_present {k : String} (vs : List String) :
    ∀ {repo : QueuesMemoryRepo} {old : List String}, repo.seq k = some old →
      (putAll repo k vs).seq k = some (old ++ vs) := by
  induction vs with
  | nil => intro repo old h; simpa [putAll] using h
  | cons v vs ih =>
      intro repo old h
      have h2 := Put_seq_same repo k v
      rw [h] at h2
      simpa [putAll] using ih h2

theorem putAll_seq (repo : QueuesMemoryRepo) (k : String) (vs : List String)
    (hne : vs ≠ []) : (putAll repo k vs).seq k = some ((repo.seq k).getD [] ++ vs) := by
  cases vs with
  | nil => exact absurd rfl hne
  | cons v vs =>
      have h2 := putAll_seq_present vs (Put_seq_same repo k v)
      simpa [putAll] using h2

theorem getN_add (k : String) (m : Nat) :
    ∀ (n : Nat) (repo : QueuesMemoryRepo),
      getN repo k (n + m) =
        match getN repo k n with
        | none => none
        | some (outs, repo2) =>
            match getN repo2 k m with
            | none => none
            | some (outs2, repo3) => some (outs ++ outs2, repo3) := by
  intro n
  induction n with
  | zero =>
      intro repo
      simp only [Nat.zero_add, getN]
      cases getN repo k m with
      | none => rfl
      | some p => rfl
  | succ n ih =>
      intro repo
      rw [Nat.add_right_comm]
      simp only [getN]
      cases hg : repo.Get k with
      | none => rfl
      | some p =>
          obtain ⟨out, repo2⟩ := p
          simp only [ih repo2]
          cases getN repo2 k n with
          | none => rfl
          | some q =>
              obtain ⟨outs, repo3⟩ := q
              simp only
              cases getN repo3 k m with
              | none => rfl
              | some q2 => rfl

/-- Draining: `Get` called once per element of `ws` on a key whose slice is `old ++ ws`
returns the elements of `ws` from the last to the first and leaves `old`; the keys and
the sequences of the other keys stay as they were. -/
theorem getN_drain {k : String} (ws : List String) :
    ∀ {repo : QueuesMemoryRepo} {old : List String}, repo.seq k = some (old ++ ws) →
      ∃ repo2, getN repo k ws.length = some (ws.reverse.map (fun v => (v, none)), repo2) ∧
        repo2.seq k = some old ∧ repo2.keys = repo.keys ∧
        ∀ k2, k2 ≠ k → repo2.seq k2 = repo.seq k2 := by
  induction ws using List.reverseRecOn with
  | nil =>
      intro repo old h
      exact ⟨repo, by simp [getN], by simpa using h, rfl, fun _ _ => rfl⟩
  | append_singleton ws x ih =>
      intro repo old h
      rw [← List.append_assoc] at h
      have hg := Get_available h
      have hs : QueuesMemoryRepo.seq { data := repo.data.store k (old ++ ws) } k
          = some (old ++ ws) := seq_store_same _ h
      obtain ⟨repo2, h1, h2, h3, h4⟩ := ih hs
      refine ⟨repo2, ?_, h2, ?_, ?_⟩
      · have hlen : (ws ++ [x]).length = ws.length + 1 := by simp
        rw [hlen]
        simp [getN, hg, h1]
      · rw [h3]; exact keys_store repo k _
      · intro k2 hne
        rw [h4 k2 hne]
        exact seq_store_other repo _ hne

/-- After the puts of `vs`, as many `Get` calls return `vs` from the last to the first. -/
theorem getN_putAll (repo : QueuesMemoryRepo) (k : String) (vs : List String) :
    ∃ repo2, getN (putAll repo k vs) k vs.length
        = some (vs.reverse.map (fun v => (v, none)), repo2) ∧
      (vs ≠ [] → repo2.seq k = some ((repo.seq k).getD [])) := by
  by_cases hvs : vs = []
  · subst hvs
    exact ⟨repo, by simp [getN, putAll], fun h => absurd rfl h⟩
  · obtain ⟨repo2, h1, h2, -, -⟩ := getN_drain vs (putAll_seq repo k vs hvs)
    exact ⟨repo2, h1, fun _ => h2⟩

theorem seq_none_of_never_put {k : String} {repo : QueuesMemoryRepo}
    (h : ReachableWithoutPut k repo) : repo.seq k = none := by
  induction h with
  | init => rfl
  | put repo key value _ hne ih => rw [Put_seq_other repo value (Ne.symm hne)]; exact ih
  | get repo key out repo2 _ hg ih =>
      rcases Get_cases hg with ⟨-, rfl, -⟩ | ⟨s, x, hs, -, rfl⟩
      · exact ih
      · by_cases hk : k = key
        · subst hk; rw [ih] at hs; cases hs
        · rw [seq_store_other repo s hk]; exact ih

/-! ## Order of delivery -/

/-- Claim C1, as stated, fails.  On the new repository the key `"k"` has no entry;
after `Put("k","a")`, `Put("k","b")` the two `Get("k")` calls return `"b"` and then `"a"`,
which is not the order `"a"`, `"b"` in which the values were put. -/
theorem C1_fifo_order_counterexample :
    Reachable NewMemoryRepo ∧ NewMemoryRepo.seq "k" = none ∧
      getN (putAll NewMemoryRepo "k" ["a", "b"]) "k" 2
        = some ([("b", none), ("a", none)], { data := { data := [⟨"k", []⟩] } }) ∧
      (getN (putAll NewMemoryRepo "k" ["a", "b"]) "k" 2).map Prod.fst
        ≠ some [("a", none), ("b", none)] :=
  ⟨Reachable.init, by decide, by decide, by decide⟩

/-- Claim C1, amended: for every repository state (so for every state reachable from
`NewMemoryRepo`, and whatever the key holds before), every key `k` and every list of values
`v_1..v_N`, performing `Put(k, v_1)`, ..., `Put(k, v_N)` and then calling `Get(k)` `N` times
returns `v_N, ..., v_1`, each with a nil error: `Get` returns the value put most recently
for the key.  Afterwards the sequence of `k` is what it was before the puts (empty if the
key had no entry). -/
theorem C1_gets_return_puts_in_reverse (repo : QueuesMemoryRepo) (k : String)
    (vs : List String) :
    ∃ repo2, getN (putAll repo k vs) k vs.length
        = some (vs.reverse.map (fun v => (v, none)), repo2) ∧
      (vs ≠ [] → repo2.seq k = some ((repo.seq k).getD [])) := by
  by_cases hvs : vs = []
  · subst hvs
    exact ⟨repo, by simp [getN, putAll], fun h => absurd rfl h⟩
  · obtain ⟨repo2, h1, h2, -, -⟩ := getN_drain vs (putAll_seq repo k vs hvs)
    exact ⟨repo2, h1, fun _ => h2⟩

/-! ## `Put` -/

/-- Claim C2: `Put(k, v)` returns nil; afterwards the sequence of `k` is `[v]` if `k` had no
entry and the old sequence followed by `v` otherwise; the sequence of every other key is
unchanged; an entry is added (at the end of the entry list) exactly when `k` had none. -/
theorem C2_put_appends_or_creates (repo : QueuesMemoryRepo) (k v : String) :
    (repo.Put k v).1 = none ∧
      (repo.Put k v).2.seq k
        = some (match repo.seq k with
                | none => [v]
                | some old => old ++ [v]) ∧
      (∀ k2, k2 ≠ k → (repo.Put k v).2.seq k2 = repo.seq k2) ∧
      (repo.Put k v).2.keys = if k ∈ repo.keys then repo.keys else repo.keys ++ [k] := by
  refine ⟨Put_err repo k v, ?_, fun k2 hne => Put_seq_other repo v hne, Put_keys repo k v⟩
  rw [Put_seq_same]
  cases repo.seq k <;> simp

/-! ## `Get` on an empty or absent sequence -/

/-- Claim C3: a single `Get(k)` returns `("", errNotFound)` and leaves the repository as it
is (a) in every state reached from `NewMemoryRepo` without a `Put` on `k`, and (b) after
the sequence of `k` has been drained by as many `Get(k)` calls as it had values, all of
which succeed; (c) `Get(k)` returns a value and a nil error whenever the sequence of `k`
is non-empty; (d) so `Get(k)` reports `errNotFound` exactly when the sequence of `k` is
absent or empty. -/
theorem C3_not_found_on_empty (repo : QueuesMemoryRepo) (k : String) :
    (ReachableWithoutPut k repo → repo.Get k = some (("", some errNotFound), repo)) ∧
      (∀ s, repo.seq k = some s →
        ∃ repo2, getN repo k s.length = some (s.reverse.map (fun v => (v, none)), repo2) ∧
          repo2.Get k = some (("", some errNotFound), repo2)) ∧
      (∀ s, repo.seq k = some s → s ≠ [] →
        ∃ v repo2, repo.Get k = some ((v, none), repo2)) ∧
      ((∃ repo2, repo.Get k = some (("", some errNotFound), repo2)) ↔
        (repo.seq k = none ∨ repo.seq k = some [])) := by
  refine ⟨fun h => Get_unavailable (Or.inl (seq_none_of_never_put h)), ?_, ?_, ?_⟩
  · intro s hs
    obtain ⟨repo2, h1, h2, -, -⟩ := @getN_drain k s repo [] (by simpa using hs)
    exact ⟨repo2, h1, Get_unavailable (Or.inr h2)⟩
  · intro s hs hne
    rcases List.eq_nil_or_concat s with rfl | ⟨s2, x, rfl⟩
    · exact absurd rfl hne
    · rw [List.concat_eq_append] at hs
      exact ⟨x, _, Get_available hs⟩
  · constructor
    · rintro ⟨repo2, hg⟩
      rcases Get_cases hg with ⟨-, -, h⟩ | ⟨s, x, -, ho, -⟩
      · exact h
      · cases ho
    · intro h
      exact ⟨repo, Get_unavailable h⟩

/-! ## Drained keys keep their entry -/

/-- Claim C4: when the sequence `s` of `k` has been drained by `Get` calls, the repository
still has the entry of `k`, now with the empty sequence, and the same list of keys; a
following `Put(k, v)` succeeds, leaves the list of keys as it is (no second entry for
`k`), and the `Get(k)` after it returns `v`. -/
theorem C4_drained_key_keeps_entry (repo : QueuesMemoryRepo) (k : String) (s : List String)
    (h : repo.seq k = some s) :
    ∃ outs repo2, getN repo k s.length = some (outs, repo2) ∧
      repo2.seq k = some [] ∧ repo2.keys = repo.keys ∧ k ∈ repo2.keys ∧
      ∀ v, (repo2.Put k v).1 = none ∧ (repo2.Put k v).2.keys = repo.keys ∧
        (repo2.Put k v).2.Get k = some ((v, none), repo2) := by
  obtain ⟨repo2, h1, h2, h3, -⟩ := @getN_drain k s repo [] (by simpa using h)
  have hin : k ∈ repo2.keys := by
    by_contra hc
    rw [(seq_eq_none_iff repo2 k).2 hc] at h2
    cases h2
  refine ⟨_, repo2, h1, h2, h3, hin, fun v => ⟨Put_err repo2 k v, ?_, ?_⟩⟩
  · rw [Put_keys, if_pos hin, h3]
  · have hp := Put_seq_same repo2 k v
    rw [h2] at hp
    rw [Get_available (s := []) (by simpa using hp), Put_present v h2]
    obtain ⟨e, he, hv⟩ : ∃ e, findEntry repo2.data.data k = some e ∧ e.value = [] := by
      simpa [QueuesMemoryRepo.seq] using h2
    simp only [MyStack.store, storeEntry_storeEntry]
    rw [← hv, storeEntry_same_value he]

/-- Claim C4 at a concrete state: the key `"k"` holding `"a"`, `"b"`. -/
theorem C4_drained_key_keeps_entry_witness :
    ∃ outs repo2, getN (putAll NewMemoryRepo "k" ["a", "b"]) "k" 2 = some (outs, repo2) ∧
      repo2.seq "k" = some [] ∧ repo2.keys = (putAll NewMemoryRepo "k" ["a", "b"]).keys ∧
      "k" ∈ repo2.keys ∧
      ∀ v, (repo2.Put "k" v).1 = none ∧
        (repo2.Put "k" v).2.keys = (putAll NewMemoryRepo "k" ["a", "b"]).keys ∧
        (repo2.Put "k" v).2.Get "k" = some ((v, none), repo2) :=
  C4_drained_key_keeps_entry (putAll NewMemoryRepo "k" ["a", "b"]) "k" ["a", "b"] (by decide)

/-! ## One entry per key -/

/-- Claim C10: in every repository state reachable from `NewMemoryRepo` by `Put` and `Get`
calls, no two entries of the entry list carry the same key. -/
theorem C10_keys_unique (repo : QueuesMemoryRepo) (h : Reachable repo) : repo.keys.Nodup := by
  induction h with
  | init => simp [NewMemoryRepo, QueuesMemoryRepo.keys]
  | put repo key value _ ih =>
      rw [Put_keys]
      split
      · exact ih
      · rename_i hnot
        exact List.Nodup.append ih (List.nodup_singleton key) (by simpa using hnot)
  | get repo key out repo2 _ hg ih =>
      rw [Get_keys hg]
      exact ih

/-- Claim C10 at a concrete reachable state: two keys, one of them put twice. -/
theorem C10_keys_unique_witness :
    Reachable (putAll (putAll NewMemoryRepo "k" ["a", "b"]) "q" ["c"]) ∧
      (putAll (putAll NewMemoryRepo "k" ["a", "b"]) "q" ["c"]).keys.Nodup :=
  ⟨Reachable.put _ "q" "c" (Reachable.put _ "k" "b" (Reachable.put _ "k" "a" Reachable.init)),
   C10_keys_unique _
     (Reachable.put _ "q" "c" (Reachable.put _ "k" "b" (Reachable.put _ "k" "a" Reachable.init)))⟩

/-! ## Parsing the decimal text of an integer -/

theorem digitOf_digitChar (d : Nat) (h : d < 10) : digitOf (Nat.digitChar d) = some d := by
  interval_cases d <;> decide

theorem le_readDigits (ds : List Nat) : ∀ acc, acc ≤ readDigits acc ds := by
  induction ds with
  | nil => intro acc; exact Nat.le_refl _
  | cons d ds ih =>
      intro acc
      have h := ih (acc * 10 + d)
      simp only [readDigits]
      omega

theorem readDigits_append (ds : List Nat) (d : Nat) :
    ∀ acc, readDigits acc (ds ++ [d]) = readDigits acc ds * 10 + d := by
  induction ds with
  | nil => intro acc; rfl
  | cons e ds ih => intro acc; exact ih (acc * 10 + e)

theorem cutoffU_eq : cutoffU = 1844674407370955162 := by decide

theorem maxUint64_eq : maxUint64 = 18446744073709551615 := by decide

/-- The digit loop on a digit string whose value fits `uint64`. -/
theorem parseUintLoop_fits (s0 : String) (ds : List Nat) :
    ∀ acc, (∀ d ∈ ds, d < 10) → readDigits acc ds < 2 ^ 64 →
      parseUintLoop s0 (ds.map Nat.digitChar) acc = (readDigits acc ds, none) := by
  induction ds with
  | nil => intro acc _ _; rfl
  | cons d ds ih =>
      intro acc hd hlt
      have hd10 : d < 10 := hd d (List.mem_cons_self _ _)
      have hge := le_readDigits ds (acc * 10 + d)
      simp only [readDigits] at hlt
      have hacc : acc * 10 + d < 18446744073709551616 := by
        have e : (2 : Nat) ^ 64 = 18446744073709551616 := by norm_num
        omega
      have h1 : ¬ d ≥ 10 := by omega
      have h2 : ¬ acc ≥ cutoffU := by rw [cutoffU_eq]; omega
      have h3 : acc * 10 % 2 ^ 64 = acc * 10 := Nat.mod_eq_of_lt (by norm_num; omega)
      have h4 : (acc * 10 + d) % 2 ^ 64 = acc * 10 + d := Nat.mod_eq_of_lt (by norm_num; omega)
      have h5 : ¬ (acc * 10 + d < acc * 10 ∨ acc * 10 + d > maxUint64) := by
        rw [maxUint64_eq]; omega
      simp only [List.map, parseUintLoop, digitOf_digitChar d hd10, h1, h2, h3, h4, h5,
        if_false, readDigits]
      exact ih (acc * 10 + d) (fun e he => hd e (List.mem_cons_of_mem _ he)) hlt

/-- The digit loop on a digit string whose value does not fit `uint64`. -/
theorem parseUintLoop_overflows (s0 : String) (ds : List Nat) :
    ∀ acc, acc < 2 ^ 64 → (∀ d ∈ ds, d < 10) → 2 ^ 64 ≤ readDigits acc ds →
      parseUintLoop s0 (ds.map Nat.digitChar) acc
        = (maxUint64, some (numError "ParseUint" s0 .outOfRange)) := by
  induction ds with
  | nil =>
      intro acc hacc _ hge
      simp only [readDigits] at hge
      omega
  | cons d ds ih =>
      intro acc hacc hd hge
      have hd10 : d < 10 := hd d (List.mem_cons_self _ _)
      have e : (2 : Nat) ^ 64 = 18446744073709551616 := by norm_num
      have h1 : ¬ d ≥ 10 := by omega
      simp only [readDigits] at hge
      simp only [List.map, parseUintLoop, digitOf_digitChar d hd10, h1, if_false]
      by_cases h2 : acc ≥ cutoffU
      · simp [h2]
      · have h2b : acc < 1844674407370955162 := by rw [cutoffU_eq] at h2; omega
        have h3 : acc * 10 % 2 ^ 64 = acc * 10 := Nat.mod_eq_of_lt (by rw [e]; omega)
        simp only [h2, if_false, h3]
        by_cases h4 : acc * 10 + d < 2 ^ 64
        · have h5 : (acc * 10 + d) % 2 ^ 64 = acc * 10 + d := Nat.mod_eq_of_lt h4
          have h6 : ¬ (acc * 10 + d < acc * 10 ∨ acc * 10 + d > maxUint64) := by
            rw [maxUint64_eq]; rw [e] at h4; omega
          simp only [h5, h6, if_false]
          exact ih (acc * 10 + d) h4 (fun x hx => hd x (List.mem_cons_of_mem _ hx)) hge
        · have h5 : (acc * 10 + d) % 2 ^ 64 < acc * 10 := by
            rw [e] at h4 ⊢
            omega
          rw [if_pos (Or.inl h5)]

/-- The digits that `Nat.toDigits 10` writes: at least one, each below ten, and their value
is the number written. -/
theorem toDigitsCore_digits (fuel : Nat) :
    ∀ (n : Nat) (tail : List Char), n < fuel →
      ∃ ds : List Nat, ds ≠ [] ∧ (∀ d ∈ ds, d < 10) ∧
        Nat.toDigitsCore 10 fuel n tail = ds.map Nat.digitChar ++ tail ∧
        readDigits 0 ds = n := by
  induction fuel with
  | zero => intro n tail h; omega
  | succ fuel ih =>
      intro n tail h
      by_cases h0 : n / 10 = 0
      · refine ⟨[n % 10], by simp, ?_, ?_, ?_⟩
        · intro d hd
          simp only [List.mem_singleton] at hd
          omega
        · simp [Nat.toDigitsCore, h0]
        · simp only [readDigits]
          omega
      · obtain ⟨ds, -, hlt, heq, hval⟩ :=
          ih (n / 10) (Nat.digitChar (n % 10) :: tail) (by omega)
        refine ⟨ds ++ [n % 10], by simp, ?_, ?_, ?_⟩
        · intro d hd
          rcases List.mem_append.1 hd with hd | hd
          · exact hlt d hd
          · simp only [List.mem_singleton] at hd
            omega
        · simp [Nat.toDigitsCore, h0, heq]
        · rw [readDigits_append, hval]
          omega

theorem repr_digits (n : Nat) :
    ∃ ds : List Nat, ds ≠ [] ∧ (∀ d ∈ ds, d < 10) ∧
      (Nat.repr n).data = ds.map Nat.digitChar ∧ readDigits 0 ds = n := by
  obtain ⟨ds, h1, h2, h3, h4⟩ := toDigitsCore_digits (n + 1) n [] (Nat.lt_succ_self n)
  refine ⟨ds, h1, h2, ?_, h4⟩
  simp [Nat.repr, Nat.toDigits, h3, List.asString]

/-- The library routine `ParseUint` reads back the decimal text of a number that fits
`uint64`, and reports a range error for one that does not. -/
theorem ParseUint_repr (n : Nat) :
    ParseUint (Nat.repr n)
      = if n < 2 ^ 64 then (n, none)
        else (maxUint64, some (numError "ParseUint" (Nat.repr n) .outOfRange)) := by
  obtain ⟨ds, hne, hlt, hdata, hval⟩ := repr_digits n
  have hs : Nat.repr n ≠ "" := by
    intro h
    have h2 := congrArg String.data h
    rw [hdata] at h2
    cases ds with
    | nil => exact hne rfl
    | cons d ds => simp at h2
  unfold ParseUint
  rw [if_neg hs, hdata]
  split
  · rename_i h
    rw [parseUintLoop_fits _ ds 0 hlt (by rw [hval]; exact h), hval]
  · rename_i h
    exact parseUintLoop_overflows _ ds 0 (by norm_num) hlt (by rw [hval]; omega)

theorem wrap64_neg_of_le (n : Nat) (h : n ≤ 2 ^ 63) :
    wrap64 (-(wrap64 (n : Int))) = -(n : Int) := by
  have e : (2 : Nat) ^ 63 = 9223372036854775808 := by norm_num
  rw [e] at h
  unfold wrap64
  norm_num
  omega

theorem wrap64_of_lt (n : Nat) (h : n < 2 ^ 63) : wrap64 (n : Int) = (n : Int) := by
  have e : (2 : Nat) ^ 63 = 9223372036854775808 := by norm_num
  rw [e] at h
  unfold wrap64
  norm_num
  omega

theorem neg_text_data (n : Nat) : ("-" ++ Nat.repr n).data = '-' :: (Nat.repr n).data := by
  simp [String.data_append]

theorem neg_text_ne_empty (n : Nat) : "-" ++ Nat.repr n ≠ "" := by
  intro h
  have h2 := congrArg String.data h
  rw [neg_text_data] at h2
  simp at h2

/-- The library routine `ParseInt` on a minus sign followed by the decimal text of `n`. -/
theorem ParseInt_neg_repr (n : Nat) :
    ParseInt ("-" ++ Nat.repr n)
      = if n ≤ 2 ^ 63 then (-(n : Int), none)
        else (-(2 : Int) ^ 63, some (numError "ParseInt" ("-" ++ Nat.repr n) .outOfRange)) := by
  have e63 : (2 : Nat) ^ 63 = 9223372036854775808 := by norm_num
  have e64 : (2 : Nat) ^ 64 = 18446744073709551616 := by norm_num
  have hmk : String.mk (Nat.repr n).data = Nat.repr n := rfl
  unfold ParseInt
  rw [if_neg (neg_text_ne_empty n), neg_text_data]
  simp only [hmk, ParseUint_repr]
  by_cases h64 : n < 2 ^ 64
  · simp only [h64, if_true]
    by_cases h63 : n ≤ 2 ^ 63
    · have h63b : n ≤ 9223372036854775808 := by rw [e63] at h63; exact h63
      have hnot : ¬ 9223372036854775808 < n := by omega
      simp [h63b, hnot, wrap64_neg_of_le n h63]
    · have hgt : 9223372036854775808 < n := by rw [e63] at h63; omega
      have h63b : ¬ n ≤ 9223372036854775808 := by omega
      simp [h63b, hgt, wrap64]
  · have h63 : ¬ n ≤ 2 ^ 63 := by rw [e63]; rw [e64] at h64; omega
    simp only [h64, h63, if_false]
    simp [wrap64, maxUint64]

theorem decimalText_neg (z : Int) (hz : z < 0) : decimalText z = "-" ++ Nat.repr z.natAbs := by
  simp [decimalText, hz]

/-- The function `ParseTimeout` on the decimal text of a negative integer: the integer itself
when it is at least `-2^63`, a range error below that. -/
theorem ParseTimeout_negative (r : Request) (z : Int) (hz : z < 0)
    (ht : queryGet r.Query "timeout" = decimalText z) :
    ParseTimeout r
      = if -(2 : Int) ^ 63 ≤ z then (z, none)
        else (0, some (numError "ParseInt" (decimalText z) .outOfRange)) := by
  have hlen : ¬ (decimalText z).length = 0 := by
    rw [decimalText_neg z hz]
    intro h
    have h2 : ("-" ++ Nat.repr z.natAbs).data = [] := List.length_eq_zero.1 h
    rw [neg_text_data] at h2
    cases h2
  have e63 : (2 : Nat) ^ 63 = 9223372036854775808 := by norm_num
  unfold ParseTimeout
  simp only [ht, hlen, if_false]
  rw [decimalText_neg z hz, ParseInt_neg_repr]
  by_cases h : z.natAbs ≤ 2 ^ 63
  · have h2 : -(2 : Int) ^ 63 ≤ z := by norm_num; omega
    have h3 : -((z.natAbs : Nat) : Int) = z := by omega
    simp only [h, h2, if_true, h3]
  · have h2 : ¬ -(2 : Int) ^ 63 ≤ z := by norm_num; omega
    simp only [h, h2, if_false]

/-! ## `HandleGet` -/

theorem queryGet_absent (q : List (String × String)) (name : String)
    (h : ∀ p ∈ q, p.1 ≠ name) : queryGet q name = "" := by
  induction q with
  | nil => rfl
  | cons p q ih =>
      obtain ⟨k, v⟩ := p
      have hk : ¬ k = name := h (k, v) (List.mem_cons_self _ _)
      simp only [queryGet, hk, if_false]
      exact ih (fun p hp => h p (List.mem_cons_of_mem _ hp))

/-- Every `Get` call returns: the index and the re-slice in `DelValue` are only reached with
a non-empty slice. -/
theorem Get_returns (repo : QueuesMemoryRepo) (k : String) :
    ∃ out repo2, repo.Get k = some (out, repo2) := by
  cases hs : repo.seq k with
  | none => exact ⟨_, _, Get_unavailable (Or.inl hs)⟩
  | some s =>
      rcases List.eq_nil_or_concat s with rfl | ⟨s2, x, rfl⟩
      · exact ⟨_, _, Get_unavailable (Or.inr hs)⟩
      · rw [List.concat_eq_append] at hs
        exact ⟨_, _, Get_available hs⟩

/-- A timeout that fails to parse: status 500, nothing else happens. -/
theorem HandleGet_parse_failure (env : Env) (repo : QueuesMemoryRepo) (r : Request)
    {t : Int} {e : GoError} (hp : ParseTimeout r = (t, some e)) (hne : e ≠ errNoTimeout) :
    HandleGet env repo r
      = some { resp := { status := StatusInternalServerError, body := Body.errorText e },
               repo := repo, trace := [] } := by
  simp [HandleGet, hp, hne, Option.filter]

/-- With a parsed or absent timeout, `HandleGet` makes its first attempt and enters the
loop with the bound `int(timeout)`. -/
theorem HandleGet_attempt (env : Env) {repo repo1 : QueuesMemoryRepo} {r : Request}
    {t : Int} {pe : Option GoError} {key : String} {out : String × Option GoError}
    (hp : ParseTimeout r = (t, pe)) (hpe : pe = none ∨ pe = some errNoTimeout)
    (hk : sliceFrom1 r.Path = some key) (hg : repo.Get key = some (out, repo1)) :
    HandleGet env repo r
      = (retryLoop env key t.toNat 0
          { res := out.1, err := out.2, repo := repo1, trace := [Event.get key out] }).map
          (fun st => { resp := writeGet st.res st.err, repo := st.repo, trace := st.trace }) := by
  have hcond : pe.filter (fun e => decide (e ≠ errNoTimeout)) = none := by
    rcases hpe with h | h <;> simp [h, Option.filter]
  simp only [HandleGet, hp, hcond, hk, hg]
  cases retryLoop env key t.toNat 0
      { res := out.1, err := out.2, repo := repo1, trace := [Event.get key out] } <;> rfl

/-- A bound that allows no iteration: one attempt, no suspension. -/
theorem HandleGet_single (env : Env) (repo : QueuesMemoryRepo) {r : Request}
    {t : Int} {pe : Option GoError} {key : String}
    (hp : ParseTimeout r = (t, pe)) (hpe : pe = none ∨ pe = some errNoTimeout)
    (ht : t ≤ 0) (hk : sliceFrom1 r.Path = some key) :
    ∃ out repo1, repo.Get key = some (out, repo1) ∧
      HandleGet env repo r
        = some { resp := writeGet out.1 out.2, repo := repo1, trace := [Event.get key out] } := by
  obtain ⟨out, repo1, hg⟩ := Get_returns repo key
  refine ⟨out, repo1, hg, ?_⟩
  rw [HandleGet_attempt env hp hpe hk hg, Int.toNat_eq_zero.2 ht]
  rfl

/-- The loop when every attempt fails: all iterations run, each one a failed `Get` and a
suspension, and the repository changes only by what the other callers do. -/
theorem retryLoop_all_fail (env : Env) (key : String)
    (henv : ∀ i repo2, (repo2.seq key = none ∨ repo2.seq key = some []) →
      ((env i repo2).seq key = none ∨ (env i repo2).seq key = some [])) :
    ∀ (n i : Nat) (repo : QueuesMemoryRepo) (trace : List Event),
      (repo.seq key = none ∨ repo.seq key = some []) →
      retryLoop env key n i
          { res := "", err := some errNotFound, repo := repo, trace := trace }
        = some { res := "", err := some errNotFound, repo := elapse env i n repo,
                 trace := trace ++ failedRetries key n } := by
  intro n
  induction n with
  | zero => intro i repo trace _; simp [retryLoop, elapse, failedRetries]
  | succ n ih =>
      intro i repo trace h
      simp only [retryLoop, Get_unavailable h]
      rw [ih (i + 1) (env i repo) _ (henv i repo h)]
      simp [elapse, failedRetries]

theorem sleeps_failedRetries (key : String) (n : Nat) :
    sleeps (failedRetries key n) = n := by
  induction n with
  | zero => rfl
  | succ n ih =>
      simp only [sleeps] at ih
      simp [sleeps, failedRetries, List.count_cons, ih]

theorem attempts_failedRetries (key : String) (n : Nat) :
    attempts (failedRetries key n) = n := by
  induction n with
  | zero => rfl
  | succ n ih => simp [attempts, failedRetries, ih]

theorem elapse_quiet (n : Nat) : ∀ (i : Nat) (repo : QueuesMemoryRepo),
    elapse quiet i n repo = repo := by
  induction n with
  | zero => intro i repo; rfl
  | succ n ih => intro i repo; simp [elapse, quiet, ih]

/-! ## The wait budget -/

/-- Claim C5, as stated, fails.  The request `GET /k?timeout=-5` on a repository holding
`"a"` under `"k"`: `ParseTimeout` returns `-5` with a nil error, `HandleGet` reports no
error, calls the repository `Get` once, which takes `"a"`, and answers 200 with `"a"`,
exactly as for the same request without a timeout parameter. -/
theorem C5_negative_budget_counterexample :
    ParseTimeout ⟨"GET", "/k", [("timeout", "-5")]⟩ = (-5, none) ∧
      HandleGet quiet (putAll NewMemoryRepo "k" ["a"]) ⟨"GET", "/k", [("timeout", "-5")]⟩
        = some { resp := { status := StatusOK, body := Body.jsonString "a" },
                 repo := { data := { data := [⟨"k", []⟩] } },
                 trace := [Event.get "k" ("a", none)] } ∧
      HandleGet quiet (putAll NewMemoryRepo "k" ["a"]) ⟨"GET", "/k", [("timeout", "-5")]⟩
        = HandleGet quiet (putAll NewMemoryRepo "k" ["a"]) ⟨"GET", "/k", []⟩ := by
  decide

/-- Claim C5, amended: for a request whose timeout parameter is the decimal text of a
negative integer `z`: if `z` is below `-2^63`, `HandleGet` answers with status 500 carrying
the range error of `strconv.ParseInt`, which is not the not-found outcome, and performs no
repository call; if `z` is at least `-2^63`, `ParseTimeout` accepts it with a nil error,
and `HandleGet` performs exactly one repository `Get` and no suspension and answers as
that single attempt does (200 with the value, or 404), like a budget of zero. -/
theorem C5_negative_budget_single_attempt (r : Request) (z : Int) (hz : z < 0)
    (ht : queryGet r.Query "timeout" = decimalText z) (env : Env)
    (repo : QueuesMemoryRepo) :
    (z < -(2 : Int) ^ 63 →
        HandleGet env repo r
          = some { resp := { status := StatusInternalServerError,
                             body := Body.errorText
                               (numError "ParseInt" (decimalText z) .outOfRange) },
                   repo := repo, trace := [] }) ∧
      (-(2 : Int) ^ 63 ≤ z →
        ParseTimeout r = (z, none) ∧
        ∀ key, sliceFrom1 r.Path = some key →
          ∃ out repo1, repo.Get key = some (out, repo1) ∧
            HandleGet env repo r
              = some { resp := writeGet out.1 out.2, repo := repo1,
                       trace := [Event.get key out] }) := by
  have hp := ParseTimeout_negative r z hz ht
  constructor
  · intro hlow
    rw [if_neg (not_le.2 hlow)] at hp
    exact HandleGet_parse_failure env repo r hp (by simp)
  · intro hin
    rw [if_pos hin] at hp
    exact ⟨hp, fun key hk => HandleGet_single env repo hp (Or.inl rfl) (le_of_lt hz) hk⟩

/-- Claim C5 amended, at the request `GET /k?timeout=-5` on a repository holding `"a"`
under `"k"`. -/
theorem C5_negative_budget_single_attempt_witness :
    ((-5 : Int) < -(2 : Int) ^ 63 →
        HandleGet quiet (putAll NewMemoryRepo "k" ["a"]) ⟨"GET", "/k", [("timeout", "-5")]⟩
          = some { resp := { status := StatusInternalServerError,
                             body := Body.errorText
                               (numError "ParseInt" (decimalText (-5)) .outOfRange) },
                   repo := putAll NewMemoryRepo "k" ["a"], trace := [] }) ∧
      (-(2 : Int) ^ 63 ≤ (-5 : Int) →
        ParseTimeout ⟨"GET", "/k", [("timeout", "-5")]⟩ = (-5, none) ∧
        ∀ key, sliceFrom1 (Request.mk "GET" "/k" [("timeout", "-5")]).Path = some key →
          ∃ out repo1, (putAll NewMemoryRepo "k" ["a"]).Get key = some (out, repo1) ∧
            HandleGet quiet (putAll NewMemoryRepo "k" ["a"])
                ⟨"GET", "/k", [("timeout", "-5")]⟩
              = some { resp := writeGet out.1 out.2, repo := repo1,
                       trace := [Event.get key out] }) :=
  C5_negative_budget_single_attempt ⟨"GET", "/k", [("timeout", "-5")]⟩ (-5) (by decide)
    (by decide) quiet (putAll NewMemoryRepo "k" ["a"])

/-- Claim C6: what the code does at `GET /k?timeout=abc`.  The parse failure is answered
with `http.StatusInternalServerError` (500), which is not `http.StatusBadRequest` (400);
the repository is not touched and no repository call is made. -/
theorem C6_non_numeric_budget_answers_500 (env : Env) (repo : QueuesMemoryRepo) :
    HandleGet env repo ⟨"GET", "/k", [("timeout", "abc")]⟩
        = some { resp := { status := StatusInternalServerError,
                           body := Body.errorText (numError "ParseInt" "abc" .invalidSyntax) },
                 repo := repo, trace := [] } ∧
      StatusInternalServerError ≠ StatusBadRequest := by
  refine ⟨HandleGet_parse_failure env repo _ (t := 0) ?_ (by simp), by decide⟩
  decide

/-- Claim C7: when the timeout parameter is absent, and when it is `0`, `HandleGet`
performs exactly one repository `Get` and no suspension; its response is the one written
for the outcome of that single `Get`, and the repository it leaves is the one that `Get`
leaves. -/
theorem C7_zero_or_absent_budget (env : Env) (repo : QueuesMemoryRepo) (r : Request)
    (key : String) (hk : sliceFrom1 r.Path = some key)
    (ht : (∀ p ∈ r.Query, p.1 ≠ "timeout") ∨ queryGet r.Query "timeout" = "0") :
    ∃ out repo1, repo.Get key = some (out, repo1) ∧
      HandleGet env repo r
        = some { resp := writeGet out.1 out.2, repo := repo1,
                 trace := [Event.get key out] } := by
  rcases ht with ht | ht
  · have hp : ParseTimeout r = (0, some errNoTimeout) := by
      simp [ParseTimeout, queryGet_absent r.Query "timeout" ht]
    exact HandleGet_single env repo hp (Or.inr rfl) (le_refl 0) hk
  · have hp : ParseTimeout r = (0, none) := by
      unfold ParseTimeout
      rw [ht]
      decide
    exact HandleGet_single env repo hp (Or.inl rfl) (le_refl 0) hk

/-- Claim C7 at the request `GET /k?timeout=0` on a repository holding `"a"`, `"b"` under
`"k"`. -/
theorem C7_zero_or_absent_budget_witness :
    ∃ out repo1, (putAll NewMemoryRepo "k" ["a", "b"]).Get "k" = some (out, repo1) ∧
      HandleGet quiet (putAll NewMemoryRepo "k" ["a", "b"]) ⟨"GET", "/k", [("timeout", "0")]⟩
        = some { resp := writeGet out.1 out.2, repo := repo1,
                 trace := [Event.get "k" out] } :=
  C7_zero_or_absent_budget quiet (putAll NewMemoryRepo "k" ["a", "b"])
    ⟨"GET", "/k", [("timeout", "0")]⟩ "k" (by decide) (Or.inr (by decide))

/-- Claim C8: for a wait budget `n ≥ 0` and a key for which the first attempt fails and to
which no other caller adds a value during the wait, `HandleGet` returns, with the
not-found outcome (404), after the initial `Get` followed by exactly `n` iterations, each a
failed `Get` and then a one-second suspension: `n` suspensions and `n + 1` attempts.  The
request changes nothing in the repository: the final repository is the initial one as
changed by the other callers, and the initial one itself when nobody else acts. -/
theorem C8_bounded_wait_exhaustion (env : Env) (repo : QueuesMemoryRepo) (r : Request)
    (key : String) (n : Nat)
    (hp : ParseTimeout r = ((n : Int), none))
    (hk : sliceFrom1 r.Path = some key)
    (h0 : repo.seq key = none ∨ repo.seq key = some [])
    (henv : ∀ i repo2, (repo2.seq key = none ∨ repo2.seq key = some []) →
      ((env i repo2).seq key = none ∨ (env i repo2).seq key = some [])) :
    HandleGet env repo r
        = some { resp := { status := StatusNotFound, body := Body.jsonError errNotFound },
                 repo := elapse env 0 n repo,
                 trace := Event.get key ("", some errNotFound) :: failedRetries key n } ∧
      sleeps (Event.get key ("", some errNotFound) :: failedRetries key n) = n ∧
      attempts (Event.get key ("", some errNotFound) :: failedRetries key n) = n + 1 ∧
      elapse quiet 0 n repo = repo := by
  refine ⟨?_, ?_, ?_, elapse_quiet n 0 repo⟩
  · rw [HandleGet_attempt env hp (Or.inl rfl) hk (Get_unavailable h0), Int.toNat_ofNat]
    simp only
    rw [retryLoop_all_fail env key henv n 0 repo _ h0]
    rfl
  · have h := sleeps_failedRetries key n
    simp only [sleeps] at h
    simp [sleeps, List.count_cons, h]
  · simp [attempts, attempts_failedRetries]

/-- Claim C8 at the request `GET /k?timeout=2` on the new repository, nobody else acting. -/
theorem C8_bounded_wait_exhaustion_witness :
    HandleGet quiet NewMemoryRepo ⟨"GET", "/k", [("timeout", "2")]⟩
        = some { resp := { status := StatusNotFound, body := Body.jsonError errNotFound },
                 repo := elapse quiet 0 2 NewMemoryRepo,
                 trace := Event.get "k" ("", some errNotFound) :: failedRetries "k" 2 } ∧
      sleeps (Event.get "k" ("", some errNotFound) :: failedRetries "k" 2) = 2 ∧
      attempts (Event.get "k" ("", some errNotFound) :: failedRetries "k" 2) = 2 + 1 ∧
      elapse quiet 0 2 NewMemoryRepo = NewMemoryRepo :=
  C8_bounded_wait_exhaustion quiet NewMemoryRepo ⟨"GET", "/k", [("timeout", "2")]⟩ "k" 2
    (by decide) (by decide) (Or.inl (by decide)) (fun _ _ h => h)

/-- Claim C9: what the code does at `GET /k?timeout=5` on the new repository.  (a) Another
caller puts `"x"` under `"k"` during the suspension of the last loop iteration, between
the fourth and the fifth second of the wait: no attempt follows that suspension, the
request ends with 404 and `"x"` stays in the repository.  (b) Another caller puts `"x"`
during the first suspension: the next attempt takes `"x"`, and the request sleeps one more
second before it answers. -/
theorem C9_put_during_wait_evaluated :
    HandleGet (fun i repo => if i = 4 then (repo.Put "k" "x").2 else repo) NewMemoryRepo
        ⟨"GET", "/k", [("timeout", "5")]⟩
      = some { resp := { status := StatusNotFound, body := Body.jsonError errNotFound },
               repo := { data := { data := [⟨"k", ["x"]⟩] } },
               trace := Event.get "k" ("", some errNotFound) :: failedRetries "k" 5 } ∧
    HandleGet (fun i repo => if i = 0 then (repo.Put "k" "x").2 else repo) NewMemoryRepo
        ⟨"GET", "/k", [("timeout", "5")]⟩
      = some { resp := { status := StatusOK, body := Body.jsonString "x" },
               repo := { data := { data := [⟨"k", []⟩] } },
               trace := [Event.get "k" ("", some errNotFound),
                         Event.get "k" ("", some errNotFound), Event.sleep,
                         Event.get "k" ("x", none), Event.sleep] } := by
  decide

/-! ## The store primitives and the frame of `Get` -/

/-- The entry list around the entry that `findByKey` finds: no entry before it carries the
key, and a store through the returned pointer replaces that entry only. -/
theorem findEntry_split {d : List KeyValue} {k : String} {e : KeyValue}
    (h : findEntry d k = some e) :
    ∃ pre post, d = pre ++ e :: post ∧ (∀ x ∈ pre, x.key ≠ k) ∧
      ∀ v, storeEntry d k v = pre ++ { key := e.key, value := v } :: post := by
  induction d with
  | nil => simp [findEntry] at h
  | cons a rest ih =>
      unfold findEntry at h
      by_cases hk : a.key = k
      · rw [if_pos hk] at h
        cases h
        exact ⟨[], rest, rfl, by simp, fun v => by simp [storeEntry, hk]⟩
      · rw [if_neg hk] at h
        obtain ⟨pre, post, h1, h2, h3⟩ := ih h
        refine ⟨a :: pre, post, by rw [h1]; rfl, ?_, fun v => ?_⟩
        · intro x hx
          rcases List.mem_cons.1 hx with rfl | hx
          · exact hk
          · exact h2 x hx
        · simp [storeEntry, hk, h3]

theorem DelValue_absent {s : MyStack} {key : String} (h : findEntry s.data key = none) :
    s.DelValue key = some (("", some errNotFound), s) := by
  simp [MyStack.DelValue, MyStack.findByKey, h]

theorem DelValue_empty {s : MyStack} {key : String} {e : KeyValue}
    (h : findEntry s.data key = some e) (hv : e.value = []) : s.DelValue key = none := by
  simp [MyStack.DelValue, MyStack.findByKey, h, hv]

theorem DelValue_nonempty {s : MyStack} {key : String} {e : KeyValue} {front : List String}
    {x : String} (h : findEntry s.data key = some e) (hv : e.value = front ++ [x]) :
    s.DelValue key = some ((x, none), s.store key front) := by
  simp [MyStack.DelValue, MyStack.findByKey, h, hv]

/-- Claim C14, as stated, fails.  The repository reached by `Put("k","a")` and `Get("k")`
has the entry of `"k"` with an empty sequence; on its store `DelValue("k")` evaluates the
index expression `elem.value[len(elem.value)-1]` with index `-1` and panics instead of
returning `errNotFound`. -/
theorem C14_DelValue_empty_counterexample :
    Reachable { data := { data := [⟨"k", []⟩] } } ∧
      MyStack.DelValue { data := [⟨"k", []⟩] } "k" = none ∧
      MyStack.DelValue { data := [⟨"k", []⟩] } "k"
        ≠ some (("", some errNotFound), { data := [⟨"k", []⟩] }) :=
  ⟨Reachable.get (NewMemoryRepo.Put "k" "a").2 "k" ("a", none) _
      (Reachable.put _ "k" "a" Reachable.init) (by decide),
    by decide, by decide⟩

/-- Claim C14, amended: for every store state and key, `DelValue(key)` fails with
`errNotFound`, returns the empty string and leaves the store unchanged when the key is
absent; when the key is present with a non-empty sequence it returns the last element with
a nil error and cuts it off; when the key is present with an empty sequence `DelValue`
itself faults (index out of range), and it is `Get` that answers this case with
`errNotFound`, without calling `DelValue` and without changing the repository. -/
theorem C14_DelValue_contract (s : MyStack) (key : String) :
    (findEntry s.data key = none → s.DelValue key = some (("", some errNotFound), s)) ∧
      (∀ e, findEntry s.data key = some e → e.value = [] →
        s.DelValue key = none ∧
        QueuesMemoryRepo.Get { data := s } key
          = some (("", some errNotFound), { data := s })) ∧
      (∀ e front x, findEntry s.data key = some e → e.value = front ++ [x] →
        s.DelValue key = some ((x, none), s.store key front)) := by
  refine ⟨DelValue_absent, ?_, fun e front x h hv => DelValue_nonempty h hv⟩
  intro e h hv
  refine ⟨DelValue_empty h hv, Get_unavailable (Or.inr ?_)⟩
  simp [QueuesMemoryRepo.seq, h, hv]

/-- Claim C15: for every store state, key and value, `AddInQueue(key, value)` returns
`errNotFound` and leaves the store unchanged when the key is absent; when the key is
present it returns nil, and the entry list is the old one with the first entry carrying
the key given the sequence `old ++ [value]`: no entry is added and every other entry is
unchanged. -/
theorem C15_AddInQueue_contract (s : MyStack) (key value : String) :
    (findEntry s.data key = none → s.AddInQueue key value = (some errNotFound, s)) ∧
      (∀ e, findEntry s.data key = some e →
        ∃ pre post, s.data = pre ++ e :: post ∧ (∀ x ∈ pre, x.key ≠ key) ∧
          s.AddInQueue key value
            = (none, { data := pre ++ { key := key, value := e.value ++ [value] } :: post }) ∧
          (s.AddInQueue key value).2.data.length = s.data.length) := by
  constructor
  · intro h
    simp [MyStack.AddInQueue, MyStack.findByKey, h]
  · intro e h
    obtain ⟨pre, post, h1, h2, h3⟩ := findEntry_split h
    have hk := findEntry_key h
    refine ⟨pre, post, h1, h2, ?_, ?_⟩
    · simp [MyStack.AddInQueue, MyStack.findByKey, h, MyStack.store, h3, hk]
    · simp [MyStack.AddInQueue, MyStack.findByKey, h, MyStack.store, storeEntry_length]

/-- Claim C16: a `Get(k)` that returns an error leaves the whole repository unchanged; a
`Get(k)` that succeeds returned the last element of `k`'s sequence and leaves the elements
before it, in their order, as the sequence of `k` (one element fewer); it keeps the list of
keys and their order, and the sequence of every other key. -/
theorem C16_Get_frame (repo repo2 : QueuesMemoryRepo) (k : String)
    (out : String × Option GoError) (h : repo.Get k = some (out, repo2)) :
    (out.2 ≠ none → out = ("", some errNotFound) ∧ repo2 = repo) ∧
      (out.2 = none →
        ∃ s, repo.seq k = some (s ++ [out.1]) ∧ repo2.seq k = some s ∧
          repo2.keys = repo.keys ∧ repo2.data.data.length = repo.data.data.length ∧
          ∀ k2, k2 ≠ k → repo2.seq k2 = repo.seq k2) := by
  rcases Get_cases h with ⟨rfl, rfl, -⟩ | ⟨s, x, hs, rfl, rfl⟩
  · exact ⟨fun _ => ⟨rfl, rfl⟩, fun hn => by cases hn⟩
  · refine ⟨fun hn => absurd rfl hn, fun _ => ⟨s, hs, seq_store_same s hs,
      keys_store repo k s, ?_, fun k2 hne => seq_store_other repo s hne⟩⟩
    simp [MyStack.store, storeEntry_length]

/-- Claim C16 at a concrete state: `Get("k")` on the keys `"k"` (holding `"a"`, `"b"`) and
`"q"` (holding `"c"`). -/
theorem C16_Get_frame_witness :
    (("b", (none : Option GoError)).2 ≠ none →
        ("b", (none : Option GoError)) = ("", some errNotFound) ∧
        ({ data := { data := [⟨"k", ["a"]⟩, ⟨"q", ["c"]⟩] } } : QueuesMemoryRepo)
          = putAll (putAll NewMemoryRepo "k" ["a", "b"]) "q" ["c"]) ∧
      (("b", (none : Option GoError)).2 = none →
        ∃ s, (putAll (putAll NewMemoryRepo "k" ["a", "b"]) "q" ["c"]).seq "k"
            = some (s ++ [("b", (none : Option GoError)).1]) ∧
          QueuesMemoryRepo.seq { data := { data := [⟨"k", ["a"]⟩, ⟨"q", ["c"]⟩] } } "k"
            = some s ∧
          QueuesMemoryRepo.keys { data := { data := [⟨"k", ["a"]⟩, ⟨"q", ["c"]⟩] } }
            = (putAll (putAll NewMemoryRepo "k" ["a", "b"]) "q" ["c"]).keys ∧
          (QueuesMemoryRepo.mk { data := [⟨"k", ["a"]⟩, ⟨"q", ["c"]⟩] }).data.data.length
            = (putAll (putAll NewMemoryRepo "k" ["a", "b"]) "q" ["c"]).data.data.length ∧
          ∀ k2, k2 ≠ "k" →
            QueuesMemoryRepo.seq { data := { data := [⟨"k", ["a"]⟩, ⟨"q", ["c"]⟩] } } k2
              = (putAll (putAll NewMemoryRepo "k" ["a", "b"]) "q" ["c"]).seq k2) :=
  C16_Get_frame (putAll (putAll NewMemoryRepo "k" ["a", "b"]) "q" ["c"])
    { data := { data := [⟨"k", ["a"]⟩, ⟨"q", ["c"]⟩] } } "k" ("b", none) (by decide)

theorem findByKey_ok {s : MyStack} {key : String} {e : KeyValue}
    (h : s.findByKey key = Except.ok e) : findEntry s.data key = some e := by
  unfold MyStack.findByKey at h
  cases hf : findEntry s.data key with
  | none => rw [hf] at h; cases h
  | some e2 => rw [hf] at h; cases h; rfl

/-- Claim C17: when `k` has the non-empty sequence `s`, `Get(k)` returns the last element
of `s` and leaves `k` with `s` minus its last element; so `Put(k, v)` followed at once by
`Get(k)` returns `v` and leaves `k` with the sequence it had before (the empty sequence
if `k` had no entry), and the whole repository as it was before if `k` had an entry. -/
theorem C17_Get_takes_last (repo : QueuesMemoryRepo) (k : String) :
    (∀ (s : List String) (hne : s ≠ []), repo.seq k = some s →
        ∃ repo2, repo.Get k = some ((s.getLast hne, none), repo2) ∧
          repo2.seq k = some s.dropLast) ∧
      (∀ v, ∃ repo2, (repo.Put k v).2.Get k = some ((v, none), repo2) ∧
        repo2.seq k = some ((repo.seq k).getD []) ∧
        (repo.seq k ≠ none → repo2 = repo)) := by
  constructor
  · intro s hne hs
    have hsplit : s.dropLast ++ [s.getLast hne] = s := List.dropLast_append_getLast hne
    have hs2 : repo.seq k = some (s.dropLast ++ [s.getLast hne]) := by rw [hsplit]; exact hs
    exact ⟨_, Get_available hs2, seq_store_same _ hs⟩
  · intro v
    have hp := Put_seq_same repo k v
    refine ⟨_, Get_available hp, seq_store_same _ hp, ?_⟩
    intro hpres
    cases hs : repo.seq k with
    | none => exact absurd hs hpres
    | some old =>
        obtain ⟨e, he, hv⟩ : ∃ e, findEntry repo.data.data k = some e ∧ e.value = old := by
          simpa [QueuesMemoryRepo.seq] using hs
        rw [Put_present v hs]
        simp only [MyStack.store, storeEntry_storeEntry, Option.getD_some]
        rw [← hv, storeEntry_same_value he]

/-- Claim C18: for every repository state, whatever its entries (empty sequences and
repeated keys included), and every key, `Get` returns, and what it returns is either a
value with a nil error or the empty string with `errNotFound`; whenever `Get` reaches the
call of `DelValue` (the key is found and its slice is not empty) the index and the
re-slice in `DelValue` are in bounds, that is, `DelValue` returns. -/
theorem C18_Get_never_faults (repo : QueuesMemoryRepo) (k : String) :
    (∃ out repo2, repo.Get k = some (out, repo2) ∧
        (out = ("", some errNotFound) ∨ out.2 = none)) ∧
      (∀ e, repo.data.findByKey k = Except.ok e → e.value.length ≠ 0 →
        ∃ x, repo.data.DelValue k
          = some ((x, none), repo.data.store k (e.value.take (e.value.length - 1)))) := by
  constructor
  · obtain ⟨out, repo2, hg⟩ := Get_returns repo k
    refine ⟨out, repo2, hg, ?_⟩
    rcases Get_cases hg with ⟨rfl, -, -⟩ | ⟨s, x, -, rfl, -⟩
    · exact Or.inl rfl
    · exact Or.inr rfl
  · intro e he hlen
    have hf := findByKey_ok he
    have hne : e.value ≠ [] := fun h => hlen (by rw [h]; rfl)
    have hsplit : e.value.dropLast ++ [e.value.getLast hne] = e.value :=
      List.dropLast_append_getLast hne
    refine ⟨e.value.getLast hne, ?_⟩
    rw [DelValue_nonempty hf hsplit.symm, ← List.dropLast_eq_take]

example : QueuesMemoryRepo.Get
      { data := { data := [⟨"k", []⟩, ⟨"k", ["z"]⟩, ⟨"q", ["c"]⟩] } } "k"
    = some (("", some errNotFound),
        { data := { data := [⟨"k", []⟩, ⟨"k", ["z"]⟩, ⟨"q", ["c"]⟩] } }) := by decide

/-! ## What `HandleGet` answers -/

theorem getOutcomes_append (t1 t2 : List Event) :
    getOutcomes (t1 ++ t2) = getOutcomes t1 ++ getOutcomes t2 := by
  induction t1 with
  | nil => rfl
  | cons ev t1 ih =>
      cases ev with
      | get key out => simp [getOutcomes, ih]
      | put key value => simp [getOutcomes, ih]
      | sleep => simp [getOutcomes, ih]

/-- A `Get` that reports an error returned the empty string and `errNotFound`. -/
theorem Get_error_outcome {repo repo2 : QueuesMemoryRepo} {k : String}
    {out : String × Option GoError} (h : repo.Get k = some (out, repo2))
    (he : out.2 ≠ none) : out = ("", some errNotFound) := by
  rcases Get_cases h with ⟨rfl, -, -⟩ | ⟨s, x, -, rfl, -⟩
  · rfl
  · exact absurd rfl he

/-- The loop returns; at its end `(res, err)` is what the last `Get` call returned, and
every `Get` call before the last one failed. -/
theorem retryLoop_outcomes (env : Env) (key : String) :
    ∀ (n i : Nat) (st : GetState) (fails : List (String × Option GoError)),
      getOutcomes st.trace = fails ++ [(st.res, st.err)] →
      (∀ o ∈ fails, o = ("", some errNotFound)) →
      (st.err ≠ none → (st.res, st.err) = ("", some errNotFound)) →
      ∃ st2 fails2, retryLoop env key n i st = some st2 ∧
        getOutcomes st2.trace = fails2 ++ [(st2.res, st2.err)] ∧
        (∀ o ∈ fails2, o = ("", some errNotFound)) := by
  intro n
  induction n with
  | zero => intro i st fails h1 h2 _; exact ⟨st, fails, rfl, h1, h2⟩
  | succ n ih =>
      intro i st fails h1 h2 h3
      cases herr : st.err with
      | none => exact ⟨st, fails, by simp [retryLoop, herr], h1, h2⟩
      | some e =>
          obtain ⟨out, repo2, hg⟩ := Get_returns st.repo key
          have hlast : (st.res, st.err) = ("", some errNotFound) := h3 (by rw [herr]; simp)
          obtain ⟨st2, fails2, h4, h5, h6⟩ :=
            ih (i + 1)
              { res := out.1, err := out.2, repo := env i repo2,
                trace := st.trace ++ [Event.get key out, Event.sleep] }
              (fails ++ [(st.res, st.err)])
              (by simp [getOutcomes_append, getOutcomes, h1])
              (by
                intro o ho
                rcases List.mem_append.1 ho with ho | ho
                · exact h2 o ho
                · rw [List.mem_singleton] at ho
                  rw [ho]; exact hlast)
              (fun he => Get_error_outcome hg he)
          exact ⟨st2, fails2, by simp [retryLoop, herr, hg, h4], h5, h6⟩

theorem retryLoop_err_none (env : Env) (key : String) (n i : Nat) (st : GetState)
    (h : st.err = none) : retryLoop env key n i st = some st := by
  cases n with
  | zero => rfl
  | succ n => simp [retryLoop, h]

/-- A `Get` that reports an error left the repository as it was. -/
theorem Get_error_repo {repo repo2 : QueuesMemoryRepo} {k : String}
    {out : String × Option GoError} (h : repo.Get k = some (out, repo2))
    (he : out.2 ≠ none) : repo2 = repo := by
  rcases Get_cases h with ⟨-, hr, -⟩ | ⟨s, x, -, rfl, -⟩
  · exact hr
  · exact absurd rfl he

/-- The loop, entered after a failed attempt with at least one iteration allowed: it ends in
some iteration `j`.  The `Get` calls of the iterations before `j` are calls on the
repository as the other callers left it, they fail and change nothing; the `Get` call of
iteration `j` is a call on that repository too, and the loop ends with what it returned,
the repository it left (after the other callers acted during the suspension that
follows), and the actions listed. -/
theorem retryLoop_last_get (env : Env) (key : String) :
    ∀ (n i : Nat) (repo : QueuesMemoryRepo) (trace : List Event),
      ∃ j out post, j ≤ n ∧
        (∀ a, a < j → (elapse env i a repo).Get key
            = some (("", some errNotFound), elapse env i a repo)) ∧
        (elapse env i j repo).Get key = some (out, post) ∧
        (out.2 ≠ none → j = n) ∧
        retryLoop env key (n + 1) i
            { res := "", err := some errNotFound, repo := repo, trace := trace }
          = some { res := out.1, err := out.2, repo := env (i + j) post,
                   trace := trace ++ (failedRetries key j
                     ++ [Event.get key out, Event.sleep]) } := by
  intro n
  induction n with
  | zero =>
      intro i repo trace
      obtain ⟨out, post, hg⟩ := Get_returns repo key
      refine ⟨0, out, post, Nat.le_refl _, fun a ha => absurd ha (Nat.not_lt_zero a), hg,
        fun _ => rfl, ?_⟩
      simp [retryLoop, hg, failedRetries]
  | succ n ih =>
      intro i repo trace
      obtain ⟨out0, post0, hg⟩ := Get_returns repo key
      by_cases hout : out0.2 = none
      · refine ⟨0, out0, post0, Nat.zero_le _, fun a ha => absurd ha (Nat.not_lt_zero a), hg,
          fun h => absurd hout h, ?_⟩
        have hstep : retryLoop env key (n + 1 + 1) i
            { res := "", err := some errNotFound, repo := repo, trace := trace }
            = retryLoop env key (n + 1) (i + 1)
                { res := out0.1, err := out0.2, repo := env i post0,
                  trace := trace ++ [Event.get key out0, Event.sleep] } := by
          simp [retryLoop, hg]
        rw [hstep, retryLoop_err_none env key (n + 1) (i + 1) _ hout]
        simp [failedRetries]
      · have ho : out0 = ("", some errNotFound) := Get_error_outcome hg hout
        have hr : post0 = repo := Get_error_repo hg hout
        subst ho
        subst hr
        obtain ⟨j, out, post, hj, hfail, hlast, hex, hrun⟩ :=
          ih (i + 1) (env i post0)
            (trace ++ [Event.get key ("", some errNotFound), Event.sleep])
        refine ⟨j + 1, out, post, Nat.succ_le_succ hj, ?_, hlast,
          fun h => by rw [hex h], ?_⟩
        · intro a ha
          cases a with
          | zero => exact hg
          | succ a => exact hfail a (Nat.lt_of_succ_lt_succ ha)
        · have hstep : retryLoop env key (n + 1 + 1) i
              { res := "", err := some errNotFound, repo := post0, trace := trace }
              = retryLoop env key (n + 1) (i + 1)
                  { res := "", err := some errNotFound, repo := env i post0,
                    trace := trace ++ [Event.get key ("", some errNotFound),
                      Event.sleep] } := by
            simp [retryLoop, hg]
          rw [hstep, hrun]
          have hidx : i + 1 + j = i + (j + 1) := by omega
          rw [hidx]
          simp [failedRetries]

/-- Claim C12: for every request whose wait budget parses or is absent, `HandleGet`
returns a response.  The last repository `Get` it performs is a call `pre.Get key` that
returns `out` and leaves `post`, and the response is the one written for `out`: status 404
with the error exactly when that `Get` returned an error, otherwise status 200 with the
value it popped as the body.  Either this last `Get` is the initial attempt on the
repository of the request; or the initial attempt and the retries before the last one are
`Get` calls that fail and leave the repository as it is, `pre` is the repository as the
other callers have changed it meanwhile, and the request ends after the suspension that
follows the last `Get`.  So a 404 response means that no `Get` of the request took a
value (`post = pre`), and a 200 response carries the one value the request took. -/
theorem C12_get_outcome_mapping (env : Env) (repo : QueuesMemoryRepo) (r : Request)
    (key : String)
    (hv : (ParseTimeout r).2 = none ∨ (ParseTimeout r).2 = some errNoTimeout)
    (hk : sliceFrom1 r.Path = some key) :
    ∃ served out pre post, HandleGet env repo r = some served ∧
      pre.Get key = some (out, post) ∧
      served.resp = writeGet out.1 out.2 ∧
      ((pre = repo ∧ served.repo = post ∧ served.trace = [Event.get key out]) ∨
        (∃ j, j < (ParseTimeout r).1.toNat ∧
          repo.Get key = some (("", some errNotFound), repo) ∧
          (∀ a, a < j → (elapse env 0 a repo).Get key
              = some (("", some errNotFound), elapse env 0 a repo)) ∧
          pre = elapse env 0 j repo ∧ served.repo = env j post ∧
          served.trace = Event.get key ("", some errNotFound)
            :: (failedRetries key j ++ [Event.get key out, Event.sleep]))) ∧
      (served.resp.status = StatusNotFound ↔ out.2 ≠ none) ∧
      (out.2 = none →
        served.resp = { status := StatusOK, body := Body.jsonString out.1 } ∧
        ∃ s, pre.seq key = some (s ++ [out.1]) ∧ post.seq key = some s) ∧
      (∀ e, out.2 = some e →
        served.resp = { status := StatusNotFound, body := Body.jsonError e } ∧
        post = pre) := by
  obtain ⟨out0, repo1, hg⟩ := Get_returns repo key
  have hstart := @HandleGet_attempt env repo repo1 r (ParseTimeout r).1 (ParseTimeout r).2
    key out0 rfl hv hk hg
  have hmap : ∀ (served : Served) (out : String × Option GoError)
      (pre post : QueuesMemoryRepo), pre.Get key = some (out, post) →
      served.resp = writeGet out.1 out.2 →
      (served.resp.status = StatusNotFound ↔ out.2 ≠ none) ∧
      (out.2 = none →
        served.resp = { status := StatusOK, body := Body.jsonString out.1 } ∧
        ∃ s, pre.seq key = some (s ++ [out.1]) ∧ post.seq key = some s) ∧
      (∀ e, out.2 = some e →
        served.resp = { status := StatusNotFound, body := Body.jsonError e } ∧
        post = pre) := by
    intro served out pre post hget hresp
    refine ⟨?_, ?_, ?_⟩
    · rw [hresp]
      cases out.2 <;> simp [writeGet, StatusOK, StatusNotFound]
    · intro hn
      refine ⟨by rw [hresp]; simp [writeGet, hn], ?_⟩
      rcases Get_cases hget with ⟨ho, -, -⟩ | ⟨s, x, hs, ho, hr⟩
      · rw [ho] at hn; cases hn
      · rw [ho, hr]
        exact ⟨s, hs, seq_store_same s hs⟩
    · intro e he
      refine ⟨by rw [hresp]; simp [writeGet, he], ?_⟩
      exact Get_error_repo hget (by rw [he]; simp)
  by_cases hdirect : (ParseTimeout r).1.toNat = 0 ∨ out0.2 = none
  · have hloop : retryLoop env key (ParseTimeout r).1.toNat 0
          { res := out0.1, err := out0.2, repo := repo1, trace := [Event.get key out0] }
        = some { res := out0.1, err := out0.2, repo := repo1,
                 trace := [Event.get key out0] } := by
      rcases hdirect with h | h
      · rw [h]; rfl
      · exact retryLoop_err_none env key _ 0 _ h
    rw [hloop] at hstart
    refine ⟨_, out0, repo, repo1, hstart, hg, rfl, Or.inl ⟨rfl, rfl, rfl⟩,
      hmap _ out0 repo repo1 hg rfl⟩
  · have hpos : (ParseTimeout r).1.toNat ≠ 0 := fun h => hdirect (Or.inl h)
    have hfail : out0.2 ≠ none := fun h => hdirect (Or.inr h)
    obtain ⟨n, hn⟩ := Nat.exists_eq_succ_of_ne_zero hpos
    have ho : out0 = ("", some errNotFound) := Get_error_outcome hg hfail
    have hr : repo1 = repo := Get_error_repo hg hfail
    subst ho
    subst hr
    obtain ⟨j, out, post, hj, hfails, hlast, -, hrun⟩ :=
      retryLoop_last_get env key n 0 repo1 [Event.get key ("", some errNotFound)]
    rw [hn] at hstart
    rw [show Nat.succ n = n + 1 from rfl] at hstart
    simp only at hstart
    rw [hrun] at hstart
    rw [Nat.zero_add] at hstart
    refine ⟨_, out, elapse env 0 j repo1, post, hstart, hlast, rfl,
      Or.inr ⟨j, by rw [hn]; exact Nat.lt_succ_of_le hj, hg, hfails, rfl, rfl, rfl⟩,
      hmap _ out _ post hlast rfl⟩

/-- Claim C12 at the request `GET /k?timeout=3` on the new repository while another caller
puts `"x"` under `"k"` during the first suspension. -/
theorem C12_get_outcome_mapping_witness :
    ∃ served out pre post,
      HandleGet (fun i repo => if i = 0 then (repo.Put "k" "x").2 else repo) NewMemoryRepo
          ⟨"GET", "/k", [("timeout", "3")]⟩ = some served ∧
      pre.Get "k" = some (out, post) ∧
      served.resp = writeGet out.1 out.2 ∧
      ((pre = NewMemoryRepo ∧ served.repo = post ∧ served.trace = [Event.get "k" out]) ∨
        (∃ j, j < (ParseTimeout ⟨"GET", "/k", [("timeout", "3")]⟩).1.toNat ∧
          NewMemoryRepo.Get "k" = some (("", some errNotFound), NewMemoryRepo) ∧
          (∀ a, a < j →
            (elapse (fun i repo => if i = 0 then (repo.Put "k" "x").2 else repo) 0 a
                NewMemoryRepo).Get "k"
              = some (("", some errNotFound),
                  elapse (fun i repo => if i = 0 then (repo.Put "k" "x").2 else repo) 0 a
                    NewMemoryRepo)) ∧
          pre = elapse (fun i repo => if i = 0 then (repo.Put "k" "x").2 else repo) 0 j
                  NewMemoryRepo ∧
          served.repo = (fun i repo => if i = 0 then (repo.Put "k" "x").2 else repo) j post ∧
          served.trace = Event.get "k" ("", some errNotFound)
            :: (failedRetries "k" j ++ [Event.get "k" out, Event.sleep]))) ∧
      (served.resp.status = StatusNotFound ↔ out.2 ≠ none) ∧
      (out.2 = none →
        served.resp = { status := StatusOK, body := Body.jsonString out.1 } ∧
        ∃ s, pre.seq "k" = some (s ++ [out.1]) ∧ post.seq "k" = some s) ∧
      (∀ e, out.2 = some e →
        served.resp = { status := StatusNotFound, body := Body.jsonError e } ∧
        post = pre) :=
  C12_get_outcome_mapping (fun i repo => if i = 0 then (repo.Put "k" "x").2 else repo)
    NewMemoryRepo ⟨"GET", "/k", [("timeout", "3")]⟩ "k" (Or.inl (by decide)) (by decide)

example :
    HandleGet (fun i repo => if i = 0 then (repo.Put "k" "x").2 else repo) NewMemoryRepo
        ⟨"GET", "/k", [("timeout", "3")]⟩
      = some { resp := { status := StatusOK, body := Body.jsonString "x" },
               repo := { data := { data := [⟨"k", []⟩] } },
               trace := [Event.get "k" ("", some errNotFound),
                         Event.get "k" ("", some errNotFound), Event.sleep,
                         Event.get "k" ("x", none), Event.sleep] } := by decide

example :
    HandleGet quiet (putAll NewMemoryRepo "k" ["a"]) ⟨"GET", "/q", [("timeout", "1")]⟩
      = some { resp := { status := StatusNotFound, body := Body.jsonError errNotFound },
               repo := putAll NewMemoryRepo "k" ["a"],
               trace := [Event.get "q" ("", some errNotFound),
                         Event.get "q" ("", some errNotFound), Event.sleep] } := by decide

/-- Claim C13: what the code does.  (a) `GET /k?timeout=1` on the new repository, nobody
else acting: the failed initial attempt is followed at once by the retry, with no
suspension between them, and the one suspension comes after the last attempt.  (b)
`GET /k?timeout=2` while another caller puts `"x"` under `"k"` during the first
suspension: the attempt that takes `"x"` is followed by a suspension before the request
answers. -/
theorem C13_retry_then_suspend_evaluated :
    (HandleGet quiet NewMemoryRepo ⟨"GET", "/k", [("timeout", "1")]⟩).map (fun sv => sv.trace)
      = some [Event.get "k" ("", some errNotFound),
              Event.get "k" ("", some errNotFound), Event.sleep] ∧
    (HandleGet (fun i repo => if i = 0 then (repo.Put "k" "x").2 else repo) NewMemoryRepo
        ⟨"GET", "/k", [("timeout", "2")]⟩).map (fun sv => (sv.trace, sv.resp))
      = some ([Event.get "k" ("", some errNotFound),
               Event.get "k" ("", some errNotFound), Event.sleep,
               Event.get "k" ("x", none), Event.sleep],
              { status := StatusOK, body := Body.jsonString "x" }) := by
  decide

/-! ## `HandlePut` and the values that enter the repository -/

theorem length_eq_zero_iff_empty (t : String) : t.length = 0 ↔ t = "" := by
  constructor
  · intro h
    have hd : t.data = [] := List.length_eq_zero.1 h
    cases t
    simp only at hd
    rw [hd]
  · intro h; rw [h]; rfl

theorem mem_storeEntry {d : List KeyValue} {k : String} {v : List String} {x : KeyValue}
    (h : x ∈ storeEntry d k v) : x ∈ d ∨ x.value = v := by
  induction d with
  | nil => simp [storeEntry] at h
  | cons a rest ih =>
      unfold storeEntry at h
      split at h
      · rcases List.mem_cons.1 h with rfl | h
        · exact Or.inr rfl
        · exact Or.inl (List.mem_cons_of_mem _ h)
      · rcases List.mem_cons.1 h with rfl | h
        · exact Or.inl (List.mem_cons_self _ _)
        · rcases ih h with h | h
          · exact Or.inl (List.mem_cons_of_mem _ h)
          · exact Or.inr h

theorem findEntry_mem {d : List KeyValue} {k : String} {e : KeyValue}
    (h : findEntry d k = some e) : e ∈ d := by
  obtain ⟨pre, post, h1, -, -⟩ := findEntry_split h
  rw [h1]
  simp

theorem Put_NoEmptyValue {repo : QueuesMemoryRepo} (k : String) {v : String}
    (hinv : NoEmptyValue repo) (hv : v ≠ "") : NoEmptyValue (repo.Put k v).2 := by
  cases hs : repo.seq k with
  | none =>
      rw [Put_absent v hs]
      intro e he
      rcases List.mem_append.1 he with he | he
      · exact hinv e he
      · rw [List.mem_singleton] at he
        rw [he]
        simpa using Ne.symm hv
  | some old =>
      obtain ⟨e0, he0, hv0⟩ : ∃ e, findEntry repo.data.data k = some e ∧ e.value = old := by
        simpa [QueuesMemoryRepo.seq] using hs
      rw [Put_present v hs]
      intro e he
      rcases mem_storeEntry he with he | he
      · exact hinv e he
      · rw [he, ← hv0]
        intro hmem
        rcases List.mem_append.1 hmem with hmem | hmem
        · exact hinv e0 (findEntry_mem he0) hmem
        · rw [List.mem_singleton] at hmem
          exact hv hmem.symm

theorem Get_NoEmptyValue {repo repo2 : QueuesMemoryRepo} {k : String}
    {out : String × Option GoError} (hinv : NoEmptyValue repo)
    (h : repo.Get k = some (out, repo2)) : NoEmptyValue repo2 := by
  rcases Get_cases h with ⟨-, rfl, -⟩ | ⟨s, x, hs, -, rfl⟩
  · exact hinv
  · obtain ⟨e0, he0, hv0⟩ :
        ∃ e, findEntry repo.data.data k = some e ∧ e.value = s ++ [x] := by
      simpa [QueuesMemoryRepo.seq] using hs
    intro e he
    rcases mem_storeEntry he with he | he
    · exact hinv e he
    · rw [he]
      intro hmem
      exact hinv e0 (findEntry_mem he0) (by rw [hv0]; exact List.mem_append_left _ hmem)

theorem retryLoop_NoEmptyValue (env : Env) (key : String)
    (henv : ∀ i x, NoEmptyValue x → NoEmptyValue (env i x)) :
    ∀ (n i : Nat) (st st2 : GetState), NoEmptyValue st.repo →
      retryLoop env key n i st = some st2 → NoEmptyValue st2.repo := by
  intro n
  induction n with
  | zero =>
      intro i st st2 hinv h
      simp only [retryLoop, Option.some.injEq] at h
      rw [← h]; exact hinv
  | succ n ih =>
      intro i st st2 hinv h
      cases herr : st.err with
      | none =>
          simp only [retryLoop, herr, Option.some.injEq] at h
          rw [← h]; exact hinv
      | some e =>
          obtain ⟨out, repo2, hg⟩ := Get_returns st.repo key
          simp only [retryLoop, herr, hg] at h
          exact ih (i + 1) _ st2 (henv i repo2 (Get_NoEmptyValue hinv hg)) h

theorem HandleGet_NoEmptyValue (env : Env) (henv : ∀ i x, NoEmptyValue x → NoEmptyValue (env i x))
    {repo : QueuesMemoryRepo} {r : Request} {served : Served} (hinv : NoEmptyValue repo)
    (h : HandleGet env repo r = some served) : NoEmptyValue served.repo := by
  cases hp : ParseTimeout r with
  | mk t pe =>
      by_cases hpe : pe = none ∨ pe = some errNoTimeout
      · cases hk : sliceFrom1 r.Path with
        | none =>
            have hcond : pe.filter (fun e => decide (e ≠ errNoTimeout)) = none := by
              rcases hpe with h2 | h2 <;> simp [h2, Option.filter]
            simp only [HandleGet, hp, hcond, hk] at h
            cases h
        | some key =>
            obtain ⟨out, repo1, hg⟩ := Get_returns repo key
            rw [HandleGet_attempt env hp hpe hk hg] at h
            cases hl : retryLoop env key t.toNat 0
                { res := out.1, err := out.2, repo := repo1,
                  trace := [Event.get key out] } with
            | none => rw [hl] at h; simp at h
            | some st2 =>
                rw [hl] at h
                simp only [Option.map_some', Option.some.injEq] at h
                rw [← h]
                exact retryLoop_NoEmptyValue env key henv _ _ _ st2
                  (Get_NoEmptyValue hinv hg) hl
      · obtain ⟨e, rfl, hne⟩ : ∃ e, pe = some e ∧ e ≠ errNoTimeout := by
          cases pe with
          | none => exact absurd (Or.inl rfl) hpe
          | some e => exact ⟨e, rfl, fun he => hpe (Or.inr (by rw [he]))⟩
        rw [HandleGet_parse_failure env repo r hp hne] at h
        simp only [Option.some.injEq] at h
        rw [← h]; exact hinv

theorem HandlePut_rejects {repo : QueuesMemoryRepo} {r : Request}
    (h : queryGet r.Query "v" = "") :
    HandlePut repo r
      = some { resp := { status := StatusBadRequest, body := Body.jsonInt StatusBadRequest },
               repo := repo, trace := [] } := by
  simp [HandlePut, h]

theorem HandlePut_accepts {repo : QueuesMemoryRepo} {r : Request} {key : String}
    (h : queryGet r.Query "v" ≠ "") (hk : sliceFrom1 r.Path = some key) :
    HandlePut repo r
      = some { resp := { status := StatusOK, body := Body.empty },
               repo := (repo.Put key (queryGet r.Query "v")).2,
               trace := [Event.put key (queryGet r.Query "v")] } := by
  have hlen : ¬ (queryGet r.Query "v").length = 0 :=
    fun hl => h ((length_eq_zero_iff_empty _).1 hl)
  have herr := Put_err repo key (queryGet r.Query "v")
  simp only [HandlePut, hlen, if_false, hk]
  cases hput : repo.Put key (queryGet r.Query "v") with
  | mk err repo1 =>
      rw [hput] at herr
      simp only at herr
      subst herr
      rfl

theorem HandlePut_NoEmptyValue {repo : QueuesMemoryRepo} {r : Request} {served : Served}
    (hinv : NoEmptyValue repo) (h : HandlePut repo r = some served) :
    NoEmptyValue served.repo := by
  by_cases hv : queryGet r.Query "v" = ""
  · rw [HandlePut_rejects hv] at h
    simp only [Option.some.injEq] at h
    rw [← h]; exact hinv
  · cases hk : sliceFrom1 r.Path with
    | none =>
        have hlen : ¬ (queryGet r.Query "v").length = 0 :=
          fun hl => hv ((length_eq_zero_iff_empty _).1 hl)
        simp [HandlePut, hlen, hk] at h
    | some key =>
        rw [HandlePut_accepts hv hk] at h
        simp only [Option.some.injEq] at h
        rw [← h]
        exact Put_NoEmptyValue key hinv hv

theorem Handler_NoEmptyValue (env : Env) (henv : ∀ i x, NoEmptyValue x → NoEmptyValue (env i x))
    {repo : QueuesMemoryRepo} {r : Request} {served : Served} (hinv : NoEmptyValue repo)
    (h : Handler env repo r = some served) : NoEmptyValue served.repo := by
  unfold Handler at h
  split at h
  · exact HandleGet_NoEmptyValue env henv hinv h
  · split at h
    · exact HandlePut_NoEmptyValue hinv h
    · simp only [Option.some.injEq] at h
      rw [← h]; exact hinv

/-- Claim C19: a PUT request whose `v` parameter is absent or empty is answered with status
400 and no repository call, so the repository is unchanged; a PUT request with a non-empty
`v` calls `Put(path without its first character, v)` exactly once and is answered with
status 200.  Hence the requests served through `Handler` never bring the empty string into
a sequence: it holds in every state reached by requests served one after the other, and a
request keeps it whatever the other callers do during its suspensions, provided they keep
it too. -/
theorem C19_HandlePut_rejects_empty_value :
    (∀ (repo : QueuesMemoryRepo) (r : Request),
        ((∀ p ∈ r.Query, p.1 ≠ "v") ∨ queryGet r.Query "v" = "") →
        HandlePut repo r
          = some { resp := { status := StatusBadRequest,
                             body := Body.jsonInt StatusBadRequest },
                   repo := repo, trace := [] }) ∧
      (∀ (repo : QueuesMemoryRepo) (r : Request) (key : String),
        queryGet r.Query "v" ≠ "" → sliceFrom1 r.Path = some key →
        HandlePut repo r
          = some { resp := { status := StatusOK, body := Body.empty },
                   repo := (repo.Put key (queryGet r.Query "v")).2,
                   trace := [Event.put key (queryGet r.Query "v")] }) ∧
      (∀ repo, HandlerReachable repo → NoEmptyValue repo) ∧
      (∀ (env : Env) (repo : QueuesMemoryRepo) (r : Request) (served : Served),
        (∀ i x, NoEmptyValue x → NoEmptyValue (env i x)) → NoEmptyValue repo →
        Handler env repo r = some served → NoEmptyValue served.repo) := by
  refine ⟨?_, fun repo r key hv hk => HandlePut_accepts hv hk, ?_,
    fun env repo r served henv hinv h => Handler_NoEmptyValue env henv hinv h⟩
  · intro repo r h
    rcases h with h | h
    · exact HandlePut_rejects (queryGet_absent r.Query "v" h)
    · exact HandlePut_rejects h
  · intro repo h
    induction h with
    | init => intro e he; simp [NewMemoryRepo] at he
    | serve repo r served _ hs ih =>
        exact Handler_NoEmptyValue quiet (fun _ _ hx => hx) ih hs

example : HandlePut NewMemoryRepo ⟨"PUT", "/k", [("v", "a")]⟩
    = some { resp := { status := StatusOK, body := Body.empty },
             repo := { data := { data := [⟨"k", ["a"]⟩] } },
             trace := [Event.put "k" "a"] } := by decide

example : HandlePut NewMemoryRepo ⟨"PUT", "/k", [("v", "")]⟩
    = some { resp := { status := StatusBadRequest, body := Body.jsonInt StatusBadRequest },
             repo := NewMemoryRepo, trace := [] } := by decide

/-! ## Overlapping and serial `Get` calls -/

/-- Claim C11, as stated, fails.  After `Put("k","a")` and `Put("k","b")`, two `Get("k")`
calls overlap: call 0 runs up to line 54 and has read `"b"`; call 1 runs from start to end
and returns `"b"`; call 0 then executes line 55 and returns `"b"` as well.  Both calls
return `"b"`, no call returns `"a"`, and `"a"` is gone from the repository. -/
theorem C11_overlapping_gets_counterexample :
    (putAll NewMemoryRepo "k" ["a", "b"]).data = { data := [⟨"k", ["a", "b"]⟩] } ∧
      (runSchedule "k" { data := [⟨"k", ["a", "b"]⟩] } (fun _ => GetPc.start)
          [0, 0, 0, 0, 1, 1, 1, 1, 1, 0]).1 = { data := [⟨"k", []⟩] } ∧
      (runSchedule "k" { data := [⟨"k", ["a", "b"]⟩] } (fun _ => GetPc.start)
          [0, 0, 0, 0, 1, 1, 1, 1, 1, 0]).2 0 = GetPc.done ("b", none) ∧
      (runSchedule "k" { data := [⟨"k", ["a", "b"]⟩] } (fun _ => GetPc.start)
          [0, 0, 0, 0, 1, 1, 1, 1, 1, 0]).2 1 = GetPc.done ("b", none) := by
  decide

theorem stepsGet_done (key : String) (out : String × Option GoError) :
    ∀ (n : Nat) (s : MyStack), stepsGet key n (GetPc.done out, s) = (GetPc.done out, s) := by
  intro n
  induction n with
  | zero => intro s; rfl
  | succ n ih => intro s; simp only [stepsGet, stepGet]; exact ih s

theorem stepsGet_succ (key : String) (n : Nat) (pc : GetPc) (s : MyStack) :
    stepsGet key (n + 1) (pc, s) = stepsGet key n (stepGet s key pc) := rfl

/-- A `Get(key)` call that runs its five steps without interruption does what the method
`Get` does. -/
theorem stepsGet_solo {repo repo2 : QueuesMemoryRepo} {key : String}
    {out : String × Option GoError} (h : repo.Get key = some (out, repo2)) :
    stepsGet key 5 (GetPc.start, repo.data) = (GetPc.done out, repo2.data) := by
  rcases Get_cases h with ⟨hout, hrepo, hs | hs⟩ | ⟨front, x, hs, hout, hrepo⟩
  · have hf : findEntry repo.data.data key = none := by
      simpa [QueuesMemoryRepo.seq] using hs
    have h1 : stepGet repo.data key GetPc.start
        = (GetPc.done ("", some errNotFound), repo.data) := by
      simp [stepGet, MyStack.findByKey, hf]
    rw [hout, hrepo, stepsGet_succ, h1, stepsGet_done]
  · obtain ⟨e, he, hv⟩ : ∃ e, findEntry repo.data.data key = some e ∧ e.value = [] := by
      simpa [QueuesMemoryRepo.seq] using hs
    have h1 : stepGet repo.data key GetPc.start = (GetPc.found, repo.data) := by
      simp [stepGet, MyStack.findByKey, he]
    have h2 : stepGet repo.data key GetPc.found
        = (GetPc.done ("", some errNotFound), repo.data) := by
      simp [stepGet, he, hv]
    rw [hout, hrepo, stepsGet_succ, h1, stepsGet_succ, h2, stepsGet_done]
  · obtain ⟨e, he, hv⟩ :
        ∃ e, findEntry repo.data.data key = some e ∧ e.value = front ++ [x] := by
      simpa [QueuesMemoryRepo.seq] using hs
    have h1 : stepGet repo.data key GetPc.start = (GetPc.found, repo.data) := by
      simp [stepGet, MyStack.findByKey, he]
    have h2 : stepGet repo.data key GetPc.found = (GetPc.checked, repo.data) := by
      simp [stepGet, he, hv]
    have h3 : stepGet repo.data key GetPc.checked = (GetPc.delFound, repo.data) := by
      simp [stepGet, MyStack.findByKey, he]
    have h4 : stepGet repo.data key GetPc.delFound = (GetPc.read x, repo.data) := by
      simp [stepGet, he, hv]
    have h5 : stepGet repo.data key (GetPc.read x)
        = (GetPc.done (x, none), repo.data.store key front) := by
      simp [stepGet, he, hv]
    rw [hout, hrepo, stepsGet_succ, h1, stepsGet_succ, h2, stepsGet_succ, h3, stepsGet_succ, h4,
      stepsGet_succ, h5]
    rfl

theorem runSchedule_replicate (key : String) (i : Nat) (rest : List Nat) :
    ∀ (t : Nat) (s : MyStack) (pcs : Nat → GetPc),
      runSchedule key s pcs (List.replicate t i ++ rest)
        = runSchedule key (stepsGet key t (pcs i, s)).2
            (Function.update pcs i (stepsGet key t (pcs i, s)).1) rest := by
  intro t
  induction t with
  | zero => intro s pcs; simp [stepsGet]
  | succ t ih =>
      intro s pcs
      have hstep : runSchedule key s pcs (List.replicate (t + 1) i ++ rest)
          = runSchedule key (stepGet s key (pcs i)).2
              (Function.update pcs i (stepGet s key (pcs i)).1)
              (List.replicate t i ++ rest) := rfl
      rw [hstep, ih]
      simp [stepsGet]

/-- Calls that run one after the other, each to its end, return what successive calls of
the method `Get` return, and leave the store these leave. -/
theorem runSchedule_serial (key : String) :
    ∀ (n base : Nat) (repo repo2 : QueuesMemoryRepo) (pcs : Nat → GetPc)
      (outs : List (String × Option GoError)),
      getN repo key n = some (outs, repo2) → (∀ j, base ≤ j → pcs j = GetPc.start) →
      (runSchedule key repo.data pcs (serialSchedule base n)).1 = repo2.data ∧
        (∀ j o, outs[j]? = some o →
          (runSchedule key repo.data pcs (serialSchedule base n)).2 (base + j)
            = GetPc.done o) ∧
        (∀ i, i < base →
          (runSchedule key repo.data pcs (serialSchedule base n)).2 i = pcs i) := by
  intro n
  induction n with
  | zero =>
      intro base repo repo2 pcs outs hg _
      simp only [getN, Option.some.injEq, Prod.mk.injEq] at hg
      obtain ⟨rfl, rfl⟩ := hg
      exact ⟨rfl, fun j o h => by simp at h, fun _ _ => rfl⟩
  | succ n ih =>
      intro base repo repo2 pcs outs hg hstart
      obtain ⟨o1, repo1, hg1⟩ := Get_returns repo key
      simp only [getN, hg1] at hg
      cases hrest : getN repo1 key n with
      | none => rw [hrest] at hg; cases hg
      | some p =>
          obtain ⟨outs1, repo3⟩ := p
          rw [hrest] at hg
          simp only [Option.some.injEq, Prod.mk.injEq] at hg
          obtain ⟨rfl, rfl⟩ := hg
          have hsolo := stepsGet_solo hg1
          simp only [serialSchedule]
          rw [runSchedule_replicate, hstart base (Nat.le_refl _), hsolo]
          dsimp only
          obtain ⟨h1, h2, h3⟩ :=
            ih (base + 1) repo1 repo3 (Function.update pcs base (GetPc.done o1)) outs1 hrest
              (by
                intro j hj
                rw [Function.update_noteq (by omega)]
                exact hstart j (by omega))
          refine ⟨h1, ?_, ?_⟩
          · intro j o hj
            cases j with
            | zero =>
                simp only [List.getElem?_cons_zero, Option.some.injEq] at hj
                have e := h3 base (Nat.lt_succ_self _)
                rw [Function.update_same] at e
                rw [← hj]
                exact e
            | succ j =>
                simp only [List.getElem?_cons_succ] at hj
                have := h2 j o hj
                rw [show base + (j + 1) = base + 1 + j by omega]
                exact this
          · intro i hi
            rw [h3 i (by omega), Function.update_noteq (by omega)]

/-- Claim C11, amended: the repository has no lock, and the permutation property holds for
calls that do not overlap.  When the `N` calls `Put(k, v_i)` with distinct values have
taken effect one after the other, in any order `ps` of the values, and the `N` calls
`Get(k)` then run one after the other, each to its end, every call returns a value with
a nil error, the values returned are a permutation of the `v_i` without repetition, and
`k` is left with the sequence it had before the puts. -/
theorem C11_serial_gets_return_permutation (repo : QueuesMemoryRepo) (k : String)
    (vs ps : List String) (hnd : vs.Nodup) (hperm : ps.Perm vs) :
    ∃ outs : List String, outs.Perm vs ∧ outs.Nodup ∧ outs.length = vs.length ∧
      (∀ j v, outs[j]? = some v →
        (runSchedule k (putAll repo k ps).data (fun _ => GetPc.start)
            (serialSchedule 0 vs.length)).2 j = GetPc.done (v, none)) ∧
      (vs ≠ [] →
        QueuesMemoryRepo.seq
            { data := (runSchedule k (putAll repo k ps).data (fun _ => GetPc.start)
                (serialSchedule 0 vs.length)).1 } k
          = some ((repo.seq k).getD [])) := by
  have hlen : ps.length = vs.length := hperm.length_eq
  obtain ⟨repo2, hg, hseq⟩ := getN_putAll repo k ps
  rw [hlen] at hg
  obtain ⟨h1, h2, -⟩ :=
    runSchedule_serial k vs.length 0 (putAll repo k ps) repo2 (fun _ => GetPc.start) _ hg
      (fun _ _ => rfl)
  refine ⟨ps.reverse, (List.reverse_perm ps).trans hperm,
    (List.nodup_reverse.2 (hperm.nodup_iff.2 hnd)), by simp [hlen], ?_, ?_⟩
  · intro j v hj
    have := h2 j (v, none) (by rw [List.getElem?_map, hj]; rfl)
    rw [Nat.zero_add] at this
    exact this
  · intro hne
    rw [h1]
    have hps : ps ≠ [] := by
      intro h
      rw [h] at hlen
      exact hne (List.length_eq_zero.1 hlen.symm)
    exact hseq hps

/-- Claim C11 amended, at the values `"a"`, `"b"` put in the order `"b"`, `"a"` on the new
repository. -/
theorem C11_serial_gets_return_permutation_witness :
    ∃ outs : List String, outs.Perm ["a", "b"] ∧ outs.Nodup ∧
      outs.length = ["a", "b"].length ∧
      (∀ j v, outs[j]? = some v →
        (runSchedule "k" (putAll NewMemoryRepo "k" ["b", "a"]).data (fun _ => GetPc.start)
            (serialSchedule 0 ["a", "b"].length)).2 j = GetPc.done (v, none)) ∧
      (["a", "b"] ≠ [] →
        QueuesMemoryRepo.seq
            { data := (runSchedule "k" (putAll NewMemoryRepo "k" ["b", "a"]).data
                (fun _ => GetPc.start) (serialSchedule 0 ["a", "b"].length)).1 } "k"
          = some ((NewMemoryRepo.seq "k").getD [])) :=
  C11_serial_gets_return_permutation NewMemoryRepo "k" ["a", "b"] ["b", "a"] (by decide)
    (List.Perm.swap "a" "b" [])

/-! ## Evaluations of the embedding on small inputs -/

example : ((NewMemoryRepo.Put "k" "a").2.Put "k" "b").2.Get "k"
    = some (("b", none), { data := { data := [⟨"k", ["a"]⟩] } }) := by decide

example : getN (putAll NewMemoryRepo "k" ["a", "b", "c"]) "k" 4
    = some ([("c", none), ("b", none), ("a", none), ("", some errNotFound)],
        { data := { data := [⟨"k", []⟩] } }) := by decide

example : ParseInt "-5" = (-5, none) := by decide

example : ParseInt "+17" = (17, none) := by decide

example : ParseInt "9223372036854775808"
    = (9223372036854775807, some (numError "ParseInt" "9223372036854775808" .outOfRange)) := by
  decide

example : ParseInt "-9223372036854775808" = (-9223372036854775808, none) := by decide

example : ParseInt "1_0" = (0, some (numError "ParseInt" "1_0" .invalidSyntax)) := by decide

example : ParseInt "-" = (0, some (numError "ParseInt" "-" .invalidSyntax)) := by decide

end QueueStore
